import Mathlib

/-
  Verification of the ConjunctionAI fuzzy rule-based classification engine.

  The development shallowly embeds the C++ headers of the repository into Lean:
  truth-value algebras (cj/math/truth.hh), the fuzzy-partition builder
  (cj/math/fuzzy_partition.hh), the confusion matrix (cj/math/confusion.hh),
  the bounded top-N selectors (cj/utils/top_n_map.hh, cj/utils/bounded_multimap.hh),
  the rule store and evaluation algorithm of fuzzy_classifier
  (cj/rough_set.hh, cj/logics/fuzzy_classifier.hh), and the randomized
  rule-set recombination (cj/math/set.hh, map_intersection_split_union).

  C++ `double` values in [0, 1] are modelled as rationals (ℚ); counts
  (`size_t`) are modelled as naturals, with matrix cells as integers so that
  non-negativity is a provable property rather than a typing artifact.
-/

namespace CJ

/-! ### Truth algebra (cj/math/truth.hh)

Each fuzzy logic stores a `value` field; we model a truth value directly as
its rational value.  `operator&&` is the strong conjunction, `operator&` the
weak conjunction, `operator||` the strong disjunction, `operator|` the weak
disjunction. -/

/-- Łukasiewicz negation, `operator!`: `1 - a`. -/
def luk_not (a : ℚ) : ℚ := 1 - a

/-- Łukasiewicz strong conjunction, `operator&&`: `max(0, a + b - 1)`. -/
def luk_strong_and (a b : ℚ) : ℚ := max 0 (a + b - 1)

/-- Łukasiewicz weak conjunction, `operator&`: `min(a, b)`. -/
def luk_weak_and (a b : ℚ) : ℚ := min a b

/-- Łukasiewicz strong disjunction, `operator||`: `min(1, a + b)`. -/
def luk_strong_or (a b : ℚ) : ℚ := min 1 (a + b)

/-- Łukasiewicz weak disjunction, `operator|`: `max(a, b)`. -/
def luk_weak_or (a b : ℚ) : ℚ := max a b

/-- Gödel negation, `operator!`: `1` if `a = 0`, else `0`. -/
def godel_not (a : ℚ) : ℚ := if a = 0 then 1 else 0

/-- Gödel strong conjunction, `operator&&`: `min(a, b)`. -/
def godel_strong_and (a b : ℚ) : ℚ := min a b

/-- Gödel strong disjunction, `operator||`: `max(a, b)`. -/
def godel_strong_or (a b : ℚ) : ℚ := max a b

/-- Gödel implication: `rhs` if `lhs > rhs`, else `1`. -/
def godel_implication (a b : ℚ) : ℚ := if b < a then b else 1

/-- Product negation, `operator!`: `1` if `a = 0`, else `0`. -/
def product_not (a : ℚ) : ℚ := if a = 0 then 1 else 0

/-- Product strong conjunction, `operator&&`: `a * b`. -/
def product_strong_and (a b : ℚ) : ℚ := a * b

/-- Product strong disjunction, `operator||`: `a + b - a * b`. -/
def product_strong_or (a b : ℚ) : ℚ := a + b - a * b

/-- Product implication: `lhs.value > rhs.value ? rhs.value / lhs.value : 1`. -/
def product_implication (a b : ℚ) : ℚ := if b < a then b / a else 1

/-! ### Claim C6: the Product implication never divides by zero -/

/-- C6: for truth values `a`, `b` in `[0,1]` of the Product logic,
`implication(a,b)` returns `b/a` when `a > b` (and in that case the divisor is
strictly positive, so the division is well defined) and `1` otherwise; when
`a = 0` the division branch is never taken since then `a ≤ b`. -/
theorem product_implication_no_div_by_zero (a b : ℚ)
    (ha0 : 0 ≤ a) (ha1 : a ≤ 1) (hb0 : 0 ≤ b) (hb1 : b ≤ 1) :
    (b < a → product_implication a b = b / a ∧ 0 < a) ∧
    (a ≤ b → product_implication a b = 1) ∧
    (a = 0 → product_implication a b = 1) := by
  refine ⟨fun h => ⟨by simp [product_implication, h], lt_of_le_of_lt hb0 h⟩,
    fun h => by simp [product_implication, not_lt.mpr h],
    fun h => ?_⟩
  subst h
  simp [product_implication, not_lt.mpr hb0]

/-- C6 witness: the theorem applied at `a = 1/2`, `b = 1/4` and at `a = 0`, `b = 0`. -/
theorem product_implication_no_div_by_zero_witness :
    (product_implication (1/2) (1/4) = (1/4) / (1/2) ∧ 0 < (1/2 : ℚ)) ∧
    product_implication 0 0 = 1 := by
  refine ⟨(product_implication_no_div_by_zero (1/2) (1/4) (by norm_num) (by norm_num)
    (by norm_num) (by norm_num)).1 (by norm_num), ?_⟩
  exact (product_implication_no_div_by_zero 0 0 (by norm_num) (by norm_num)
    (by norm_num) (by norm_num)).2.2 rfl

/-! ### Claim C7: double negation -/

/-- C7: double negation is an identity for the Łukasiewicz truth type
(`not(not(a)) = a` for every `a` in `[0,1]`) but not for the Gödel and Product
truth types: each has a value `a` in `[0,1]` with `not(not(a)) ≠ a`. -/
theorem double_negation_involutive_only_for_lukasiewicz :
    (∀ a : ℚ, 0 ≤ a → a ≤ 1 → luk_not (luk_not a) = a) ∧
    (∃ a : ℚ, 0 ≤ a ∧ a ≤ 1 ∧ godel_not (godel_not a) ≠ a) ∧
    (∃ a : ℚ, 0 ≤ a ∧ a ≤ 1 ∧ product_not (product_not a) ≠ a) := by
  refine ⟨fun a _ _ => by simp [luk_not], ⟨1/2, by norm_num, by norm_num, ?_⟩,
    ⟨1/2, by norm_num, by norm_num, ?_⟩⟩
  · norm_num [godel_not]
  · norm_num [product_not]

/-- C7 witness: the Łukasiewicz involution applied at `a = 1/3`. -/
theorem double_negation_involutive_only_for_lukasiewicz_witness :
    luk_not (luk_not (1/3 : ℚ)) = 1/3 :=
  double_negation_involutive_only_for_lukasiewicz.1 (1/3) (by norm_num) (by norm_num)

/-! ### Confusion matrix (cj/math/confusion.hh)

The class `confusion<Count, Float>` stores an Eigen matrix of counts indexed
by `(predicted, observed)` plus a running total `m_count`.  In the repository
it is instantiated as `confusion<size_t, double>`; cells are modelled as
integers (so that non-negativity of cells is a statement, not a typing
artifact) and the increments as naturals, and `Float` as ℚ. -/

structure Confusion where
  dim : ℕ
  cell : ℕ → ℕ → ℤ
  count : ℤ

/-- The constructor `confusion(dim)`: a dim×dim matrix of zeros, zero total. -/
def Confusion.init (dim : ℕ) : Confusion :=
  ⟨dim, fun _ _ => 0, 0⟩

/-- Member `add_count(actual, expected, add)`: increments the cell and the total. -/
def Confusion.add_count (m : Confusion) (p o : ℕ) (n : ℕ) : Confusion :=
  { m with
    cell := fun i j => if i = p ∧ j = o then m.cell i j + n else m.cell i j
    count := m.count + n }

/-- Member `sub_count(actual, expected, sub)`: if the cell holds less than `sub`,
remove only what the cell holds and zero it; otherwise subtract `sub` from both
the cell and the total. -/
def Confusion.sub_count (m : Confusion) (p o : ℕ) (n : ℕ) : Confusion :=
  if m.cell p o < (n : ℤ) then
    { m with
      cell := fun i j => if i = p ∧ j = o then 0 else m.cell i j
      count := m.count - m.cell p o }
  else
    { m with
      cell := fun i j => if i = p ∧ j = o then m.cell i j - n else m.cell i j
      count := m.count - n }

/-- Member `true_positives(c) = m_c(c, c)`. -/
def Confusion.true_positives (m : Confusion) (c : ℕ) : ℤ := m.cell c c

/-- Member `false_positives(c)`: the sum of row `c` minus `m_c(c, c)`. -/
def Confusion.false_positives (m : Confusion) (c : ℕ) : ℤ :=
  (∑ i ∈ Finset.range m.dim, m.cell c i) - m.cell c c

/-- Member `false_negatives(c)`: the sum of column `c` minus `m_c(c, c)`. -/
def Confusion.false_negatives (m : Confusion) (c : ℕ) : ℤ :=
  (∑ i ∈ Finset.range m.dim, m.cell i c) - m.cell c c

/-- Member `true_negatives(c) = m_count - (fp + fn + tp)`. -/
def Confusion.true_negatives (m : Confusion) (c : ℕ) : ℤ :=
  m.count - (m.false_positives c + m.false_negatives c + m.true_positives c)

/-- Member `tss(c) = (Float(tp*tn) - Float(fp*fn)) / Float((tp+fn)*(fp+tn))`. -/
def Confusion.tss (m : Confusion) (c : ℕ) : ℚ :=
  ((m.true_positives c * m.true_negatives c : ℤ) - (m.false_positives c * m.false_negatives c : ℤ) : ℚ) /
    ((m.true_positives c + m.false_negatives c) * (m.false_positives c + m.true_negatives c) : ℤ)

/-- Sum of row `c` of the matrix (spec shorthand `row_sum(c)`). -/
def Confusion.row_sum (m : Confusion) (c : ℕ) : ℤ :=
  ∑ i ∈ Finset.range m.dim, m.cell c i

/-- Sum of column `c` of the matrix (spec shorthand `col_sum(c)`). -/
def Confusion.col_sum (m : Confusion) (c : ℕ) : ℤ :=
  ∑ i ∈ Finset.range m.dim, m.cell i c

/-- Sum of all cells of the matrix (the spec's "total"). -/
def Confusion.total_cells (m : Confusion) : ℤ :=
  ∑ i ∈ Finset.range m.dim, ∑ j ∈ Finset.range m.dim, m.cell i j

/-! ### Claim C2: the TSS formula -/

/-- C2: for a confusion matrix whose running count equals the sum of its cells
(the invariant of claim C8) and whose total is nonzero, `tss(c)` equals
`(tp*tn - fp*fn) / ((tp+fn)*(fp+tn))` where `tp = cell(c,c)`,
`fp = row_sum(c) - cell(c,c)`, `fn = col_sum(c) - cell(c,c)` and
`tn = total - (fp + fn + tp)`. -/
theorem tss_eq_spec_formula (m : Confusion) (c : ℕ)
    (hinv : m.count = m.total_cells) (h0 : m.total_cells ≠ 0) :
    m.tss c =
      ((m.cell c c * (m.total_cells - ((m.row_sum c - m.cell c c) + (m.col_sum c - m.cell c c) + m.cell c c))
          - (m.row_sum c - m.cell c c) * (m.col_sum c - m.cell c c) : ℤ) : ℚ) /
        (((m.cell c c + (m.col_sum c - m.cell c c)) *
          ((m.row_sum c - m.cell c c) + (m.total_cells - ((m.row_sum c - m.cell c c) + (m.col_sum c - m.cell c c) + m.cell c c))) : ℤ) : ℚ) := by
  simp only [Confusion.tss, Confusion.true_positives, Confusion.true_negatives,
    Confusion.false_positives, Confusion.false_negatives, Confusion.row_sum,
    Confusion.col_sum, hinv]
  push_cast
  ring

/-- C2 witness: the theorem applied to the 2×2 matrix accumulated from counts
`(0,0)×5`, `(1,1)×3` and `(0,1)×2`; for category 1, `tp = 3`, `fp = 0`,
`fn = 2`, `tn = 5`, so the formula yields `15/25 = 3/5`. -/
theorem tss_eq_spec_formula_witness :
    ((Confusion.init 2).add_count 0 0 5 |>.add_count 1 1 3 |>.add_count 0 1 2).tss 1 = 3/5 := by
  rw [tss_eq_spec_formula _ 1 (by decide) (by decide)]
  norm_num [Confusion.total_cells, Confusion.row_sum, Confusion.col_sum,
    Confusion.add_count, Confusion.init, Finset.sum_range_succ]

/-! ### Claim C8: cell non-negativity and the running-total invariant -/

/-- An `add_count`/`sub_count` call with its arguments. -/
inductive ConfOp where
  | add (p o n : ℕ)
  | sub (p o n : ℕ)

/-- Applies one call to the matrix. -/
def Confusion.apply_op (m : Confusion) : ConfOp → Confusion
  | .add p o n => m.add_count p o n
  | .sub p o n => m.sub_count p o n

/-- Applies a sequence of calls, oldest first. -/
def Confusion.apply_ops (m : Confusion) (ops : List ConfOp) : Confusion :=
  ops.foldl Confusion.apply_op m

/-- Indices of the call address a cell of a `d`-dimensional matrix (out-of-range
indices are undefined behaviour on the Eigen matrix of the source). -/
def ConfOp.in_range (d : ℕ) : ConfOp → Prop
  | .add p o _ => p < d ∧ o < d
  | .sub p o _ => p < d ∧ o < d

/-- A double sum over a matrix that is zero away from one in-range point
collapses to the value at that point. -/
theorem sum_sum_ite_point (d p o : ℕ) (hp : p < d) (ho : o < d) (g : ℕ → ℕ → ℤ) :
    (∑ i ∈ Finset.range d, ∑ j ∈ Finset.range d, if i = p ∧ j = o then g i j else 0) = g p o := by
  have h1 : ∀ b ∈ Finset.range d, b ≠ p →
      (∑ j ∈ Finset.range d, if b = p ∧ j = o then g b j else 0) = 0 := by
    intro b _ hb
    simp [hb]
  rw [Finset.sum_eq_single_of_mem p (Finset.mem_range.mpr hp) h1]
  have h2 : ∀ b ∈ Finset.range d, b ≠ o → (if p = p ∧ b = o then g p b else 0) = 0 := by
    intro b _ hb
    simp [hb]
  rw [Finset.sum_eq_single_of_mem o (Finset.mem_range.mpr ho) h2]
  simp

/-- Updating one in-range cell changes the total by the difference at that cell. -/
theorem sum_sum_update (d p o : ℕ) (hp : p < d) (ho : o < d) (f x : ℕ → ℕ → ℤ) :
    (∑ i ∈ Finset.range d, ∑ j ∈ Finset.range d, if i = p ∧ j = o then x i j else f i j)
      = (∑ i ∈ Finset.range d, ∑ j ∈ Finset.range d, f i j) - f p o + x p o := by
  have key : ∀ i j, (if i = p ∧ j = o then x i j else f i j)
      = f i j + (if i = p ∧ j = o then x i j - f i j else 0) := by
    intro i j
    split_ifs <;> ring
  simp only [key, Finset.sum_add_distrib]
  rw [sum_sum_ite_point d p o hp ho (fun i j => x i j - f i j)]
  ring

/-- The per-matrix invariant of claim C8: every cell is non-negative and the
running count equals the sum of all cells. -/
def Confusion.good (m : Confusion) : Prop :=
  (∀ i j, 0 ≤ m.cell i j) ∧ m.count = m.total_cells

theorem Confusion.dim_apply_op (m : Confusion) (op : ConfOp) : (m.apply_op op).dim = m.dim := by
  cases op with
  | add p o n => rfl
  | sub p o n =>
    simp only [Confusion.apply_op, Confusion.sub_count]
    split <;> rfl

theorem Confusion.good_apply_op (m : Confusion) (op : ConfOp)
    (hr : op.in_range m.dim) (h : m.good) : (m.apply_op op).good := by
  obtain ⟨hpos, hcount⟩ := h
  cases op with
  | add p o n =>
    obtain ⟨hp, ho⟩ := hr
    refine ⟨fun i j => ?_, ?_⟩
    · have h0 := hpos i j
      simp only [Confusion.apply_op, Confusion.add_count]
      split
      · omega
      · exact h0
    · show m.count + n = Confusion.total_cells _
      rw [hcount]
      unfold Confusion.total_cells
      simp only [Confusion.apply_op, Confusion.add_count]
      rw [sum_sum_update m.dim p o hp ho m.cell (fun i j => m.cell i j + n)]
      ring
  | sub p o n =>
    obtain ⟨hp, ho⟩ := hr
    simp only [Confusion.apply_op, Confusion.sub_count]
    split
    · rename_i hlt
      refine ⟨fun i j => ?_, ?_⟩
      · have h0 := hpos i j
        simp only
        split
        · exact le_refl 0
        · exact h0
      · show m.count - m.cell p o = Confusion.total_cells _
        rw [hcount]
        unfold Confusion.total_cells
        rw [sum_sum_update m.dim p o hp ho m.cell (fun _ _ => 0)]
        ring
    · rename_i hge
      refine ⟨fun i j => ?_, ?_⟩
      · have h0 := hpos i j
        simp only
        split
        · rename_i hij
          obtain ⟨hip, hjo⟩ := hij
          subst hip
          subst hjo
          omega
        · exact h0
      · show m.count - n = Confusion.total_cells _
        rw [hcount]
        unfold Confusion.total_cells
        rw [sum_sum_update m.dim p o hp ho m.cell (fun i j => m.cell i j - n)]
        ring

theorem Confusion.good_apply_ops (ops : List ConfOp) :
    ∀ (m : Confusion) (d : ℕ), m.dim = d → (∀ op ∈ ops, op.in_range d) →
      m.good → (m.apply_ops ops).good := by
  induction ops with
  | nil =>
    intro m d _ _ h
    exact h
  | cons op rest ih =>
    intro m d hdim hops h
    have hr : op.in_range m.dim := by
      rw [hdim]
      exact hops op (by simp)
    have hdim1 : (m.apply_op op).dim = d := by rw [Confusion.dim_apply_op, hdim]
    have hrest : ∀ op' ∈ rest, op'.in_range d := fun op' hmem => hops op' (by simp [hmem])
    exact ih (m.apply_op op) d hdim1 hrest (m.good_apply_op op hr h)

/-- C8: folding any in-range sequence of `add_count`/`sub_count` calls from a
fresh matrix keeps every cell non-negative and keeps the running total equal to
the sum of all cells; moreover `sub_count(p, o, n)` with `n` exceeding the
current cell clamps that cell at zero and decreases the total by only the
amount actually removed. -/
theorem confusion_invariant_and_clamp :
    (∀ (d : ℕ) (ops : List ConfOp), (∀ op ∈ ops, op.in_range d) →
      (∀ i j, 0 ≤ ((Confusion.init d).apply_ops ops).cell i j) ∧
      ((Confusion.init d).apply_ops ops).count = ((Confusion.init d).apply_ops ops).total_cells) ∧
    (∀ (m : Confusion) (p o : ℕ) (n : ℕ), m.cell p o < (n : ℤ) →
      (m.sub_count p o n).cell p o = 0 ∧ (m.sub_count p o n).count = m.count - m.cell p o) := by
  constructor
  · intro d ops hops
    have hinit : (Confusion.init d).good := by
      constructor
      · intro i j
        exact le_refl 0
      · simp [Confusion.init, Confusion.total_cells]
    exact Confusion.good_apply_ops ops (Confusion.init d) d rfl hops hinit
  · intro m p o n hlt
    constructor
    · simp [Confusion.sub_count, hlt]
    · simp [Confusion.sub_count, hlt]

/-- C8 witness: the invariant applied to the sequence `add(1,1,2)` on a 2×2
matrix, and the clamp applied to `sub_count(0,0,5)` on a matrix whose `(0,0)`
cell holds 3. -/
theorem confusion_invariant_and_clamp_witness :
    ((Confusion.init 2).apply_ops [ConfOp.add 1 1 2]).count =
      ((Confusion.init 2).apply_ops [ConfOp.add 1 1 2]).total_cells ∧
    (((Confusion.init 2).add_count 0 0 3).sub_count 0 0 5).cell 0 0 = 0 ∧
    (((Confusion.init 2).add_count 0 0 3).sub_count 0 0 5).count =
      ((Confusion.init 2).add_count 0 0 3).count - ((Confusion.init 2).add_count 0 0 3).cell 0 0 := by
  have h1 := confusion_invariant_and_clamp.1 2 [ConfOp.add 1 1 2]
    (by
      intro op hop
      simp only [List.mem_singleton] at hop
      subst hop
      exact ⟨one_lt_two, one_lt_two⟩)
  have h2 := confusion_invariant_and_clamp.2 ((Confusion.init 2).add_count 0 0 3) 0 0 5 (by decide)
  exact ⟨h1.2, h2.1, h2.2⟩

/-! ### Fuzzy partition builder (cj/math/fuzzy_partition.hh)

Membership functions map an input (`double`, modelled as ℚ) to a truth value
(`Truth`, whose `value` field is modelled as ℚ). -/

/-- Function `make_slope(begin, end, before, after)`: flat at `before` left of
`begin`, flat at `after` from `end` on, linear interpolation in between. -/
def make_slope (b e : ℚ) (before after : ℚ) : ℚ → ℚ :=
  fun x =>
    if x < b then before
    else if x < e then before * (1 - (x - b) / (e - b)) + after * (1 - (e - x) / (e - b))
    else after

/-- Function `make_triangle(begin, i_apex, end, before, t_apex, after)`: two
slopes joined at the apex, flat outside `[begin, end]`. -/
def make_triangle (b a e : ℚ) (before tApex after : ℚ) : ℚ → ℚ :=
  fun x =>
    if x < b then before
    else if x < a then before * (1 - (x - b) / (a - b)) + tApex * (1 - (a - x) / (a - b))
    else if x < e then tApex * (1 - (x - a) / (e - a)) + after * (1 - (e - x) / (e - a))
    else after

/-- Function `make_triangles(n, begin, end, floor, ceil)`: empty for `n < 2`,
otherwise a descending slope, `n - 2` interior triangles, and an ascending
slope, with `step = (end - begin) / (n - 1)`. -/
def make_triangles (n : ℕ) (b e : ℚ) (fl ce : ℚ) : List (ℚ → ℚ) :=
  if n < 2 then []
  else
    let step : ℚ := (e - b) / ((n - 1 : ℕ) : ℚ)
    (make_slope b (b + step) ce fl ::
      (List.range (n - 2)).map fun (i : ℕ) =>
        make_triangle (b + (i : ℚ) * step) (b + ((i : ℚ) + 1) * step)
          (b + ((i : ℚ) + 2) * step) fl ce fl)
      ++ [make_slope (e - step) e fl ce]

theorem make_slope_at_left (b e before after : ℚ) (h : b < e) :
    make_slope b e before after b = before := by
  unfold make_slope
  rw [if_neg (lt_irrefl b), if_pos h]
  have hne : e - b ≠ 0 := ne_of_gt (sub_pos.mpr h)
  rw [sub_self, zero_div, div_self hne]
  ring

theorem make_slope_at_right (b e before after : ℚ) (h : b ≤ e) :
    make_slope b e before after e = after := by
  unfold make_slope
  rw [if_neg (not_lt.mpr h), if_neg (lt_irrefl e)]

theorem make_triangle_at_apex (b a e fl ce : ℚ) (hba : b < a) (hae : a < e) :
    make_triangle b a e fl ce fl a = ce := by
  unfold make_triangle
  rw [if_neg (not_lt.mpr hba.le), if_neg (lt_irrefl a), if_pos hae]
  have hne : e - a ≠ 0 := ne_of_gt (sub_pos.mpr hae)
  rw [sub_self, zero_div, div_self hne]
  ring

theorem make_triangle_at_left (b a e fl ce : ℚ) (hba : b < a) :
    make_triangle b a e fl ce fl b = fl := by
  unfold make_triangle
  rw [if_neg (lt_irrefl b), if_pos hba]
  have hne : a - b ≠ 0 := ne_of_gt (sub_pos.mpr hba)
  rw [sub_self, zero_div, div_self hne]
  ring

theorem make_triangle_at_right (b a e fl ce : ℚ) (hba : b ≤ a) (hae : a ≤ e) :
    make_triangle b a e fl ce fl e = fl := by
  unfold make_triangle
  rw [if_neg (not_lt.mpr (hba.trans hae)), if_neg (not_lt.mpr hae), if_neg (lt_irrefl e)]

/-! ### Claim C9: shape of `make_triangles` -/

/-- C9: for `n ≥ 2` and `begin < end`, `make_triangles` returns exactly `n`
functions with `step = (end-begin)/(n-1)`: the first descends from `ceil` at
`begin` to `floor` at `begin+step`, each interior function `i` (`0 < i < n-1`)
is a triangle worth `ceil` at its centre `begin + i*step` and `floor` at its
endpoints `begin + (i-1)*step` and `begin + (i+1)*step`, and the last ascends
from `floor` at `end-step` to `ceil` at `end`; for `n < 2` the result is empty. -/
theorem make_triangles_shape (n : ℕ) (b e fl ce : ℚ) (hn : 2 ≤ n) (hbe : b < e) :
    (make_triangles n b e fl ce).length = n ∧
    ((make_triangles n b e fl ce).getD 0 (fun _ => 0)) b = ce ∧
    ((make_triangles n b e fl ce).getD 0 (fun _ => 0)) (b + (e - b) / ((n - 1 : ℕ) : ℚ)) = fl ∧
    (∀ i : ℕ, 0 < i → i < n - 1 →
      ((make_triangles n b e fl ce).getD i (fun _ => 0)) (b + (i : ℚ) * ((e - b) / ((n - 1 : ℕ) : ℚ))) = ce ∧
      ((make_triangles n b e fl ce).getD i (fun _ => 0)) (b + ((i : ℚ) - 1) * ((e - b) / ((n - 1 : ℕ) : ℚ))) = fl ∧
      ((make_triangles n b e fl ce).getD i (fun _ => 0)) (b + ((i : ℚ) + 1) * ((e - b) / ((n - 1 : ℕ) : ℚ))) = fl) ∧
    (((make_triangles n b e fl ce).getLast?.getD (fun _ => 0)) (e - (e - b) / ((n - 1 : ℕ) : ℚ)) = fl ∧
     ((make_triangles n b e fl ce).getLast?.getD (fun _ => 0)) e = ce) ∧
    (∀ m : ℕ, m < 2 → make_triangles m b e fl ce = []) := by
  have hnn : ¬ n < 2 := not_lt.mpr hn
  set s : ℚ := (e - b) / ((n - 1 : ℕ) : ℚ) with hs_def
  have hd : (0 : ℚ) < ((n - 1 : ℕ) : ℚ) := by
    have : 1 ≤ n - 1 := by omega
    exact_mod_cast Nat.lt_of_lt_of_le Nat.zero_lt_one this
  have hs : 0 < s := div_pos (sub_pos.mpr hbe) hd
  have hlist : make_triangles n b e fl ce =
      (make_slope b (b + s) ce fl ::
        (List.range (n - 2)).map fun (i : ℕ) =>
          make_triangle (b + (i : ℚ) * s) (b + ((i : ℚ) + 1) * s) (b + ((i : ℚ) + 2) * s) fl ce fl)
        ++ [make_slope (e - s) e fl ce] := by
    unfold make_triangles
    rw [if_neg hnn]
  refine ⟨?_, ?_, ?_, ?_, ⟨?_, ?_⟩, ?_⟩
  · rw [hlist]
    simp only [List.length_append, List.length_cons, List.length_map, List.length_range,
      List.length_nil]
    omega
  · rw [hlist]
    simp only [List.cons_append, List.getD_cons_zero]
    exact make_slope_at_left b (b + s) ce fl (by linarith)
  · rw [hlist]
    simp only [List.cons_append, List.getD_cons_zero]
    exact make_slope_at_right b (b + s) ce fl (by linarith)
  · intro i hi0 hin
    obtain ⟨k, rfl⟩ : ∃ k, i = k + 1 := ⟨i - 1, by omega⟩
    have hk : k < n - 2 := by omega
    have hget : (make_triangles n b e fl ce).getD (k + 1) (fun _ => 0) =
        make_triangle (b + (k : ℚ) * s) (b + ((k : ℚ) + 1) * s) (b + ((k : ℚ) + 2) * s) fl ce fl := by
      rw [hlist]
      simp only [List.cons_append, List.getD_cons_succ]
      rw [List.getD_eq_getElem?_getD, List.getElem?_append,
        if_pos (by simpa using hk)]
      simp [List.getElem?_map, List.getElem?_range, hk]
    push_cast
    rw [hget]
    have h1 : b + (k : ℚ) * s < b + ((k : ℚ) + 1) * s := by nlinarith
    have h2 : b + ((k : ℚ) + 1) * s < b + ((k : ℚ) + 2) * s := by nlinarith
    refine ⟨?_, ?_, ?_⟩
    · exact make_triangle_at_apex _ _ _ fl ce h1 h2
    · have e2 : b + ((k : ℚ) + 1 - 1) * s = b + (k : ℚ) * s := by ring
      rw [e2]
      exact make_triangle_at_left _ _ _ fl ce h1
    · have e3 : b + ((k : ℚ) + 1 + 1) * s = b + ((k : ℚ) + 2) * s := by ring
      rw [e3]
      exact make_triangle_at_right _ _ _ fl ce h1.le h2.le
  · rw [hlist, List.getLast?_concat]
    simp only [Option.getD_some]
    exact make_slope_at_left (e - s) e fl ce (by linarith)
  · rw [hlist, List.getLast?_concat]
    simp only [Option.getD_some]
    exact make_slope_at_right (e - s) e fl ce (by linarith)
  · intro m hm
    unfold make_triangles
    rw [if_pos hm]

/-- C9 witness: `make_triangles 3 0 1 0 1` (step `1/2`) applied by the theorem;
the middle triangle peaks at `1/2` with value 1 and is 0 at both ends. -/
theorem make_triangles_shape_witness :
    (make_triangles 3 0 1 0 1).length = 3 ∧
    ((make_triangles 3 0 1 0 1).getD 1 (fun _ => 0)) ((0 : ℚ) + (1 : ℚ) * ((1 - 0) / ((3 - 1 : ℕ) : ℚ))) = 1 := by
  have h := make_triangles_shape 3 0 1 0 1 (by norm_num) (by norm_num)
  exact ⟨h.1, (h.2.2.2.1 1 (by norm_num) (by norm_num)).1⟩

/-! ### Classifier evaluation (cj/rough_set.hh, fuzzy_classifier::evaluate)

The rule store `rules_type` is a `flat_map<antecedent_type, id_type>`; its
iteration order is modelled by the order of an association list.  The
interpretation supplies `num_categories()` and the membership call
`get(var, set, x)`.  `evaluate` is generic over the truth type; the two
operators it uses are `operator&&` (strong AND) and `operator||` (strong OR),
bundled in `TruthOps`. -/

structure TruthOps where
  sand : ℚ → ℚ → ℚ
  sor : ℚ → ℚ → ℚ

/-- Łukasiewicz instantiation: `operator&&` and `operator||` of `truth.hh`. -/
def lukOps : TruthOps := ⟨luk_strong_and, luk_strong_or⟩

/-- Aggregation the spec claims: strong AND with the weak OR `operator|`
(maximum) of `truth.hh` in place of `operator||`. -/
def lukWeakOrOps : TruthOps := ⟨luk_strong_and, luk_weak_or⟩

structure Interp where
  numCategories : ℕ
  memb : ℕ → ℕ → ℚ → ℚ

/-- An antecedent (`flat_map<id, id>`): ascending list of (input id, fuzzy-set id). -/
abbrev Antecedent := List (ℕ × ℕ)

/-- The rule store: association list from antecedent to category id, in
`flat_map` iteration order. -/
abbrev Rules := List (Antecedent × ℕ)

/-- Function `idx_of_maximum` of `cj/math/statistics.hh`: left-to-right scan
from index 0, moving only on a strictly greater value. -/
def idx_of_maximum (c : List ℚ) : ℕ :=
  ((List.range c.length).drop 1).foldl (fun idx i => if c.getD idx 0 < c.getD i 0 then i else idx) 0

/-- The inner loop of `evaluate`: conjoin (strong AND) the membership of each
antecedent literal, starting from `truth_type{1}`. -/
def rule_truth (T : TruthOps) (I : Interp) (row : ℕ → ℚ) (a : Antecedent) : ℚ :=
  a.foldl (fun t v => T.sand t (I.memb v.1 v.2 (row v.1))) 1

/-- The accumulation loop of `evaluate`: per-category truths start at
`truth_type{0}` and each rule's activation is combined into its target
category's slot with `operator||`. -/
def accumulate (T : TruthOps) (I : Interp) (row : ℕ → ℚ) (rules : Rules) : List ℚ :=
  rules.foldl (fun acc r => acc.set r.2 (T.sor (acc.getD r.2 0) (rule_truth T I row r.1)))
    (List.replicate I.numCategories 0)

/-- Member `evaluate(row)`: the index of the maximum accumulated truth. -/
def evaluate (T : TruthOps) (I : Interp) (rules : Rules) (row : ℕ → ℚ) : ℕ :=
  idx_of_maximum (accumulate T I row rules)

/-- Per-category truth stated the spec's way: fold the rule activations of the
rules targeting category `c`, in rule order, starting from zero truth. -/
def category_truth (T : TruthOps) (I : Interp) (row : ℕ → ℚ) (rules : Rules) (c : ℕ) : ℚ :=
  (rules.filter fun r => r.2 = c).foldl (fun t r => T.sor t (rule_truth T I row r.1)) 0

theorem getD_set_self : ∀ (l : List ℚ) (i : ℕ) (x d : ℚ), i < l.length →
    (l.set i x).getD i d = x := by
  intro l
  induction l with
  | nil =>
    intro i x d h
    simp at h
  | cons a t ih =>
    intro i x d h
    cases i with
    | zero => rfl
    | succ m =>
      simp only [List.set_cons_succ, List.getD_cons_succ]
      exact ih m x d (by simpa using h)

theorem getD_set_ne : ∀ (l : List ℚ) (i j : ℕ) (x d : ℚ), j ≠ i →
    (l.set i x).getD j d = l.getD j d := by
  intro l
  induction l with
  | nil =>
    intro i j x d _
    rfl
  | cons a t ih =>
    intro i j x d h
    cases i with
    | zero =>
      cases j with
      | zero => exact absurd rfl h
      | succ mj => rfl
    | succ mi =>
      cases j with
      | zero => rfl
      | succ mj =>
        simp only [List.set_cons_succ, List.getD_cons_succ]
        exact ih mi mj x d (fun hc => h (by rw [hc]))

theorem getD_replicate (n i : ℕ) (x d : ℚ) (h : i < n) :
    (List.replicate n x).getD i d = x := by
  induction n generalizing i with
  | zero => omega
  | succ m ih =>
    cases i with
    | zero => rfl
    | succ k =>
      simp only [List.replicate_succ, List.getD_cons_succ]
      exact ih k (by omega)

theorem map_getD_range (l : List ℚ) :
    (List.range l.length).map (fun c => l.getD c 0) = l := by
  apply List.ext_getElem
  · simp
  · intro i h1 h2
    simp only [List.getElem_map, List.getElem_range]
    exact List.getD_eq_getElem l 0 h2

theorem accumulate_foldl_eq (T : TruthOps) (I : Interp) (row : ℕ → ℚ) :
    ∀ (rules : Rules) (init : List ℚ), (∀ r ∈ rules, r.2 < init.length) →
      rules.foldl (fun acc r => acc.set r.2 (T.sor (acc.getD r.2 0) (rule_truth T I row r.1))) init
        = (List.range init.length).map
            (fun c => (rules.filter fun r => r.2 = c).foldl
              (fun t r => T.sor t (rule_truth T I row r.1)) (init.getD c 0)) := by
  intro rules
  induction rules with
  | nil =>
    intro init _
    simp only [List.foldl_nil, List.filter_nil]
    exact (map_getD_range init).symm
  | cons r rs ih =>
    intro init hlen
    simp only [List.foldl_cons]
    rw [ih (init.set r.2 (T.sor (init.getD r.2 0) (rule_truth T I row r.1)))
      (fun r' hr' => by
        rw [List.length_set]
        exact hlen r' (by simp [hr']))]
    rw [List.length_set]
    apply List.map_congr_left
    intro c hc
    rw [List.mem_range] at hc
    by_cases hcr : r.2 = c
    · subst hcr
      rw [getD_set_self init r.2 _ 0 (hlen r (by simp))]
      have hfil : (r :: rs).filter (fun r' => r'.2 = r.2) =
          r :: rs.filter (fun r' => r'.2 = r.2) := by
        simp [List.filter_cons]
      rw [hfil, List.foldl_cons]
    · rw [getD_set_ne init r.2 c _ 0 (fun hc' => hcr hc'.symm)]
      have hfil : (r :: rs).filter (fun r' => r'.2 = c) = rs.filter (fun r' => r'.2 = c) := by
        simp [List.filter_cons, hcr]
      rw [hfil]

/-! ### Claim C1: what `evaluate` computes -/

/-- Concrete Łukasiewicz interpretation for the C1 counterexample: one input
variable with three fuzzy sets of constant memberships 2/5, 2/5, 3/5, and two
categories. -/
def interpC1 : Interp :=
  ⟨2, fun _ s _ => if s = 0 then 2/5 else if s = 1 then 2/5 else 3/5⟩

/-- Two rules sending distinct antecedents to category 0 and one rule sending
a third antecedent to category 1. -/
def rulesC1 : Rules := [([(0, 0)], 0), ([(0, 1)], 0), ([(0, 2)], 1)]

/-- C1 counterexample: under Łukasiewicz, the code's `evaluate` (which
aggregates with `operator||`, the strong OR `min(1, a+b)`) answers category 0
(accumulated truth `min(1, 2/5 + 2/5) = 4/5 > 3/5`), whereas the aggregation
the claim describes (weak OR `operator|`, the maximum) would answer category 1
(`max(2/5, 2/5) = 2/5 < 3/5`). -/
theorem evaluate_weak_or_claim_counterexample :
    evaluate lukOps interpC1 rulesC1 (fun _ => 0) = 0 ∧
    evaluate lukWeakOrOps interpC1 rulesC1 (fun _ => 0) = 1 := by
  constructor <;>
    norm_num [evaluate, accumulate, idx_of_maximum, rule_truth, interpC1, rulesC1,
      lukOps, lukWeakOrOps, luk_strong_and, luk_strong_or, luk_weak_or,
      List.replicate, List.range_succ, List.set_cons_zero, List.set_cons_succ,
      List.getD_cons_zero, List.getD_cons_succ]

/-- C1 amended: `evaluate` conjoins the per-literal membership truths of each
rule's antecedent with the strong AND, aggregates each rule's activation into
its target category's accumulator (all initialized to zero truth) with the
strong OR `operator||` of the chosen logic (not the weak OR/maximum, except
for logics such as Gödel where the two coincide), and returns the category of
maximum aggregated truth, ties broken by lowest category id via a left-to-right
first-strictly-greater-wins scan (`idx_of_maximum`). -/
theorem evaluate_eq_idx_of_maximum_of_strong_or_folds (T : TruthOps) (I : Interp)
    (rules : Rules) (row : ℕ → ℚ) (hcat : ∀ r ∈ rules, r.2 < I.numCategories) :
    evaluate T I rules row =
      idx_of_maximum ((List.range I.numCategories).map (category_truth T I row rules)) := by
  unfold evaluate accumulate
  rw [accumulate_foldl_eq T I row rules (List.replicate I.numCategories 0)
    (by simpa using hcat)]
  rw [List.length_replicate]
  congr 1
  apply List.map_congr_left
  intro c hc
  rw [List.mem_range] at hc
  unfold category_truth
  rw [getD_replicate I.numCategories c 0 0 hc]

/-- C1 amended witness: the amended description applied to the counterexample
classifier. -/
theorem evaluate_eq_idx_of_maximum_of_strong_or_folds_witness :
    evaluate lukOps interpC1 rulesC1 (fun _ => 0) =
      idx_of_maximum ((List.range interpC1.numCategories).map
        (category_truth lukOps interpC1 (fun _ => 0) rulesC1)) :=
  evaluate_eq_idx_of_maximum_of_strong_or_folds lukOps interpC1 rulesC1 (fun _ => 0)
    (by decide)

theorem foldl_argmax_stays_zero (c : List ℚ) :
    ∀ l : List ℕ, (∀ i ∈ l, ¬ c.getD 0 0 < c.getD i 0) →
      l.foldl (fun idx i => if c.getD idx 0 < c.getD i 0 then i else idx) 0 = 0 := by
  intro l
  induction l with
  | nil =>
    intro _
    rfl
  | cons a t ih =>
    intro h
    simp only [List.foldl_cons]
    rw [if_neg (h a (by simp))]
    exact ih (fun i hi => h i (by simp [hi]))

theorem idx_of_maximum_replicate (n : ℕ) (x : ℚ) :
    idx_of_maximum (List.replicate n x) = 0 := by
  unfold idx_of_maximum
  apply foldl_argmax_stays_zero
  intro i hi
  have hi' := List.mem_of_mem_drop hi
  rw [List.length_replicate, List.mem_range] at hi'
  have h0 : 0 < n := by omega
  rw [getD_replicate n i x 0 hi', getD_replicate n 0 x 0 h0]
  exact lt_irrefl x

/-! ### Claim C10: evaluation with an empty rule store -/

/-- C10: with an empty rule store every category accumulator stays at the zero
truth, and the first-strictly-greater-wins scan of an all-equal vector returns
index 0, so `evaluate` returns category 0. -/
theorem evaluate_empty_rule_store (T : TruthOps) (I : Interp) (row : ℕ → ℚ) :
    accumulate T I row [] = List.replicate I.numCategories 0 ∧
    evaluate T I [] row = 0 ∧
    (∀ (n : ℕ) (x : ℚ), idx_of_maximum (List.replicate n x) = 0) := by
  refine ⟨rfl, ?_, ?_⟩
  · show idx_of_maximum (List.replicate I.numCategories 0) = 0
    exact idx_of_maximum_replicate I.numCategories 0
  · exact idx_of_maximum_replicate

/-! ### Rule stores: `add_rule` (cj/rough_set.hh and cj/logics/fuzzy_classifier.hh)

The map `m_rules` is a `flat_map<antecedent_type, id_type>`, modelled as an
association list with unique keys; `m_rules[a] = c` is insert-or-overwrite. -/

/-- Operation `m_rules[a] = c` on a map modelled as an association list:
overwrite the value if the key is present, append the entry otherwise. -/
def map_assign {A : Type} [DecidableEq A] (a : A) (c : ℕ) : List (A × ℕ) → List (A × ℕ)
  | [] => [(a, c)]
  | (b, d) :: rest => if a = b then (a, c) :: rest else (b, d) :: map_assign a c rest

/-- Lookup `m_rules.find(a)` on the association list. -/
def map_find {A : Type} [DecidableEq A] (a : A) : List (A × ℕ) → Option ℕ
  | [] => none
  | (b, d) :: rest => if a = b then some d else map_find a rest

/-- Member `add_rule(antecedent, category)` of the `fuzzy_classifier` of
`cj/rough_set.hh`: rejects an empty antecedent (returns `false`, store
untouched), otherwise assigns `m_rules[a] = c` and returns `true`. -/
def add_rule (rules : Rules) (a : Antecedent) (c : ℕ) : Bool × Rules :=
  if !a.isEmpty then (true, map_assign a c rules) else (false, rules)

/-- Member `add_rule(antecedent, category)` of the `fuzzy_classifier` of
`cj/logics/fuzzy_classifier.hh`: `m_rules[a] = c` unconditionally, `void`
return — an empty antecedent is inserted like any other key. -/
def logics_add_rule (rules : Rules) (a : Antecedent) (c : ℕ) : Rules :=
  map_assign a c rules

theorem map_find_assign_self {A : Type} [DecidableEq A] (a : A) (c : ℕ) :
    ∀ l : List (A × ℕ), map_find a (map_assign a c l) = some c := by
  intro l
  induction l with
  | nil => simp [map_assign, map_find]
  | cons p rest ih =>
    obtain ⟨b, d⟩ := p
    by_cases hab : a = b
    · simp [map_assign, map_find, hab]
    · simp only [map_assign, map_find, if_neg hab]
      exact ih

theorem map_find_assign_ne {A : Type} [DecidableEq A] (a b : A) (c : ℕ) (hba : b ≠ a) :
    ∀ l : List (A × ℕ), map_find b (map_assign a c l) = map_find b l := by
  intro l
  induction l with
  | nil => simp [map_assign, map_find, hba]
  | cons p rest ih =>
    obtain ⟨e, d⟩ := p
    by_cases hae : a = e
    · subst hae
      simp [map_assign, map_find, hba]
    · simp only [map_assign, if_neg hae, map_find]
      by_cases hbe : b = e
      · simp [hbe]
      · simp only [if_neg hbe]
        exact ih

/-! ### Claim C3: `add_rule` semantics -/

/-- C3 counterexample: the claim quantifies over every rule store, but the
`add_rule` of `cj/logics/fuzzy_classifier.hh` inserts an empty antecedent
rather than rejecting it: starting from an empty store, its size becomes 1. -/
theorem logics_add_rule_accepts_empty_antecedent :
    logics_add_rule ([] : Rules) ([] : Antecedent) 0 = [([], 0)] ∧
    (logics_add_rule ([] : Rules) ([] : Antecedent) 0).length ≠ ([] : Rules).length := by
  constructor
  · rfl
  · decide

/-- C3 amended: for the `fuzzy_classifier` of `cj/rough_set.hh`, `add_rule`
with an empty antecedent returns `false` and leaves the store (hence `size()`)
unchanged, and with a non-empty antecedent returns `true` and inserts or
overwrites the category for that antecedent (last write wins), leaving every
other antecedent's entry unchanged.  The `add_rule` of
`cj/logics/fuzzy_classifier.hh` instead inserts unconditionally (`void`). -/
theorem add_rule_semantics (rules : Rules) (a : Antecedent) (c : ℕ) :
    (a = [] → add_rule rules a c = (false, rules)) ∧
    (a ≠ [] →
      (add_rule rules a c).1 = true ∧
      map_find a (add_rule rules a c).2 = some c ∧
      (∀ b : Antecedent, b ≠ a → map_find b (add_rule rules a c).2 = map_find b rules)) := by
  constructor
  · intro ha
    subst ha
    rfl
  · intro ha
    have hne : a.isEmpty = false := by
      cases a with
      | nil => exact absurd rfl ha
      | cons x t => rfl
    refine ⟨by simp [add_rule, hne], ?_, ?_⟩
    · simp only [add_rule, hne, Bool.not_false, if_pos]
      exact map_find_assign_self a c rules
    · intro b hb
      simp only [add_rule, hne, Bool.not_false, if_pos]
      exact map_find_assign_ne a b c hb rules

/-- C3 witness: rejection of the empty antecedent on a one-rule store, and the
overwrite `add_rule({(0,0)}, 1)` over an existing `({(0,0)}, 0)` rule. -/
theorem add_rule_semantics_witness :
    add_rule [([(0, 0)], 0)] ([] : Antecedent) 5 = (false, [([(0, 0)], 0)]) ∧
    map_find [(0, 0)] (add_rule [([(0, 0)], 0)] [(0, 0)] 1).2 = some 1 := by
  refine ⟨(add_rule_semantics [([(0, 0)], 0)] [] 5).1 rfl, ?_⟩
  exact ((add_rule_semantics [([(0, 0)], 0)] [(0, 0)] 1).2 (by decide)).2.1

/-! ### Bounded top-N selectors (cj/utils/top_n_map.hh, cj/utils/bounded_multimap.hh)

The underlying `ordered_multimap` is modelled as a list of (key, value) pairs
kept sorted by key; `insert` places a new pair after existing equal keys
(`std::multimap` semantics) and `erase(begin())` drops the head. -/

structure TopNMap where
  maxSize : ℕ
  values : List (ℚ × ℕ)

/-- Multimap insertion at the upper bound of the key. -/
def mmInsert (k : ℚ) (v : ℕ) : List (ℚ × ℕ) → List (ℚ × ℕ)
  | [] => [(k, v)]
  | (k0, v0) :: rest => if k0 ≤ k then (k0, v0) :: mmInsert k v rest else (k, v) :: (k0, v0) :: rest

/-- Member `try_insert` of `top_n_map` (multimap backend): insert while the
container is below capacity; once at capacity, insert only when the key
strictly exceeds the minimum, after erasing the minimum entry.  (The
at-capacity branch dereferences `begin()` in C++, so an empty container at
capacity — only possible with `max_size = 0` — is undefined there; it is
modelled as a rejection.) -/
def TopNMap.try_insert (t : TopNMap) (k : ℚ) (v : ℕ) : Bool × TopNMap :=
  if t.values.length < t.maxSize then (true, ⟨t.maxSize, mmInsert k v t.values⟩)
  else
    match t.values with
    | [] => (false, t)
    | (k0, _) :: rest => if k0 < k then (true, ⟨t.maxSize, mmInsert k v rest⟩) else (false, t)

/-- Member `try_insert` of `bounded_multimap`: identical except that the
eviction branch additionally tests `size() == max_size()`. -/
def bounded_multimap_try_insert (t : TopNMap) (k : ℚ) (v : ℕ) : Bool × TopNMap :=
  if t.values.length < t.maxSize then (true, ⟨t.maxSize, mmInsert k v t.values⟩)
  else if t.values.length = t.maxSize then
    match t.values with
    | [] => (false, t)
    | (k0, _) :: rest => if k0 < k then (true, ⟨t.maxSize, mmInsert k v rest⟩) else (false, t)
  else (false, t)

/-- Keys appear in ascending order (the `ordered_multimap` invariant). -/
def sortedLE (l : List (ℚ × ℕ)) : Prop :=
  l.Pairwise (fun p q => p.1 ≤ q.1)

theorem mem_mmInsert (k : ℚ) (v : ℕ) :
    ∀ (l : List (ℚ × ℕ)) (q : ℚ × ℕ), q ∈ mmInsert k v l ↔ q = (k, v) ∨ q ∈ l := by
  intro l
  induction l with
  | nil => simp [mmInsert]
  | cons p rest ih =>
    intro q
    obtain ⟨k0, v0⟩ := p
    by_cases h : k0 ≤ k
    · simp only [mmInsert, if_pos h, List.mem_cons, ih]
      tauto
    · simp only [mmInsert, if_neg h, List.mem_cons]

theorem length_mmInsert (k : ℚ) (v : ℕ) :
    ∀ l : List (ℚ × ℕ), (mmInsert k v l).length = l.length + 1 := by
  intro l
  induction l with
  | nil => rfl
  | cons p rest ih =>
    obtain ⟨k0, v0⟩ := p
    by_cases h : k0 ≤ k
    · simp only [mmInsert, if_pos h, List.length_cons, ih]
    · simp [mmInsert, if_neg h]

theorem sortedLE_mmInsert (k : ℚ) (v : ℕ) :
    ∀ l : List (ℚ × ℕ), sortedLE l → sortedLE (mmInsert k v l) := by
  intro l
  induction l with
  | nil =>
    intro _
    exact List.pairwise_singleton _ _
  | cons p rest ih =>
    intro hs
    obtain ⟨k0, v0⟩ := p
    rw [sortedLE, List.pairwise_cons] at hs
    obtain ⟨hhead, hrest⟩ := hs
    by_cases h : k0 ≤ k
    · rw [mmInsert, if_pos h, sortedLE, List.pairwise_cons]
      refine ⟨?_, ih hrest⟩
      intro q hq
      rcases (mem_mmInsert k v rest q).mp hq with hq' | hq'
      · rw [hq']
        exact h
      · exact hhead q hq'
    · rw [mmInsert, if_neg h, sortedLE, List.pairwise_cons]
      push_neg at h
      refine ⟨?_, ?_⟩
      · intro q hq
        rcases List.mem_cons.mp hq with hq' | hq'
        · rw [hq']
          exact h.le
        · exact h.le.trans (hhead q hq')
      · rw [List.pairwise_cons]
        exact ⟨hhead, hrest⟩

theorem try_insert_below (N : ℕ) (vals : List (ℚ × ℕ)) (k : ℚ) (v : ℕ)
    (h : vals.length < N) :
    TopNMap.try_insert ⟨N, vals⟩ k v = (true, ⟨N, mmInsert k v vals⟩) := by
  unfold TopNMap.try_insert
  rw [if_pos h]

theorem try_insert_full_nil (N : ℕ) (k : ℚ) (v : ℕ) (h : ¬ ([] : List (ℚ × ℕ)).length < N) :
    TopNMap.try_insert ⟨N, []⟩ k v = (false, ⟨N, []⟩) := by
  unfold TopNMap.try_insert
  rw [if_neg h]

theorem try_insert_full_cons (N : ℕ) (k0 : ℚ) (v0 : ℕ) (rest : List (ℚ × ℕ)) (k : ℚ) (v : ℕ)
    (h : ¬ ((k0, v0) :: rest).length < N) :
    TopNMap.try_insert ⟨N, (k0, v0) :: rest⟩ k v =
      if k0 < k then (true, ⟨N, mmInsert k v rest⟩) else (false, ⟨N, (k0, v0) :: rest⟩) := by
  unfold TopNMap.try_insert
  rw [if_neg h]

theorem try_insert_preserves (t : TopNMap) (k : ℚ) (v : ℕ)
    (hlen : t.values.length ≤ t.maxSize) (hsort : sortedLE t.values) :
    (t.try_insert k v).2.values.length ≤ (t.try_insert k v).2.maxSize ∧
    sortedLE (t.try_insert k v).2.values ∧
    (t.try_insert k v).2.maxSize = t.maxSize := by
  obtain ⟨N, vals⟩ := t
  dsimp only at hlen hsort ⊢
  by_cases hlt : vals.length < N
  · rw [try_insert_below N vals k v hlt]
    refine ⟨?_, sortedLE_mmInsert k v vals hsort, rfl⟩
    dsimp only
    rw [length_mmInsert]
    omega
  · cases vals with
    | nil =>
      rw [try_insert_full_nil N k v hlt]
      exact ⟨hlen, hsort, rfl⟩
    | cons p rest =>
      obtain ⟨k0, v0⟩ := p
      rw [try_insert_full_cons N k0 v0 rest k v hlt]
      by_cases hk : k0 < k
      · rw [if_pos hk]
        have hr : sortedLE rest := (List.pairwise_cons.mp hsort).2
        refine ⟨?_, sortedLE_mmInsert k v rest hr, rfl⟩
        dsimp only
        rw [length_mmInsert]
        simp only [List.length_cons] at hlen
        omega
      · rw [if_neg hk]
        exact ⟨hlen, hsort, rfl⟩

theorem fold_try_insert_invariant (ops : List (ℚ × ℕ)) :
    ∀ t : TopNMap, t.values.length ≤ t.maxSize → sortedLE t.values →
      (ops.foldl (fun s kv => (s.try_insert kv.1 kv.2).2) t).values.length ≤
        (ops.foldl (fun s kv => (s.try_insert kv.1 kv.2).2) t).maxSize ∧
      sortedLE (ops.foldl (fun s kv => (s.try_insert kv.1 kv.2).2) t).values ∧
      (ops.foldl (fun s kv => (s.try_insert kv.1 kv.2).2) t).maxSize = t.maxSize := by
  induction ops with
  | nil =>
    intro t h1 h2
    exact ⟨h1, h2, rfl⟩
  | cons kv rest ih =>
    intro t h1 h2
    simp only [List.foldl_cons]
    have hstep := try_insert_preserves t kv.1 kv.2 h1 h2
    have := ih (t.try_insert kv.1 kv.2).2 hstep.1 hstep.2.1
    exact ⟨this.1, this.2.1, this.2.2.trans hstep.2.2⟩

/-! ### Claim C4: the bounded top-N invariant -/

/-- C4: from an empty selector of capacity `N`, any sequence of `try_insert`
calls keeps `size() ≤ max_size()`; while below capacity every insertion is
accepted and grows the size by one (duplicate keys retained, multimap
semantics); once full (with the sorted contents `(k0,v0) :: rest`, whose head
key `k0` bounds every stored key, i.e. is the minimum), an insertion is
accepted iff its key strictly exceeds `k0`, in which case exactly the minimum
entry is evicted and the size is unchanged, while a key equal to the minimum
is rejected; `bounded_multimap::try_insert` behaves identically whenever
`size ≤ max`. -/
theorem top_n_selector_invariant :
    (∀ (N : ℕ) (ops : List (ℚ × ℕ)),
      (ops.foldl (fun (s : TopNMap) kv => (s.try_insert kv.1 kv.2).2) ⟨N, []⟩).values.length ≤ N) ∧
    (∀ (t : TopNMap) (k : ℚ) (v : ℕ), t.values.length < t.maxSize →
      (t.try_insert k v).1 = true ∧
      (t.try_insert k v).2.values.length = t.values.length + 1) ∧
    (∀ (N : ℕ) (k : ℚ) (v : ℕ) (k0 : ℚ) (v0 : ℕ) (rest : List (ℚ × ℕ)),
      ((k0, v0) :: rest).length = N → sortedLE ((k0, v0) :: rest) →
      ((∀ q ∈ (k0, v0) :: rest, k0 ≤ q.1) ∧
       ((TopNMap.try_insert ⟨N, (k0, v0) :: rest⟩ k v).1 = true ↔ k0 < k) ∧
       (k0 < k → (TopNMap.try_insert ⟨N, (k0, v0) :: rest⟩ k v).2.values = mmInsert k v rest ∧
         (TopNMap.try_insert ⟨N, (k0, v0) :: rest⟩ k v).2.values.length = ((k0, v0) :: rest).length) ∧
       (k = k0 → TopNMap.try_insert ⟨N, (k0, v0) :: rest⟩ k v = (false, ⟨N, (k0, v0) :: rest⟩)))) ∧
    (∀ (t : TopNMap) (k : ℚ) (v : ℕ), t.values.length ≤ t.maxSize →
      bounded_multimap_try_insert t k v = t.try_insert k v) := by
  refine ⟨?_, ?_, ?_, ?_⟩
  · intro N ops
    have h := fold_try_insert_invariant ops ⟨N, []⟩ (by simp) (by simp [sortedLE])
    rw [h.2.2] at h
    exact h.1
  · intro t k v hlt
    obtain ⟨N, vals⟩ := t
    dsimp only at hlt ⊢
    rw [try_insert_below N vals k v hlt]
    exact ⟨rfl, length_mmInsert k v vals⟩
  · intro N k v k0 v0 rest hfull hsort
    have hnotlt : ¬ ((k0, v0) :: rest).length < N := by omega
    rw [try_insert_full_cons N k0 v0 rest k v hnotlt]
    have hmin : ∀ q ∈ (k0, v0) :: rest, k0 ≤ q.1 := by
      intro q hq
      rcases List.mem_cons.mp hq with hq' | hq'
      · rw [hq']
      · exact (List.pairwise_cons.mp hsort).1 q hq'
    refine ⟨hmin, ?_, ?_, ?_⟩
    · by_cases hk : k0 < k
      · rw [if_pos hk]
        simpa using hk
      · rw [if_neg hk]
        simpa using hk
    · intro hk
      rw [if_pos hk]
      exact ⟨rfl, by dsimp only; rw [length_mmInsert]; simp⟩
    · intro hk
      subst hk
      rw [if_neg (lt_irrefl k)]
  · intro t k v hle
    obtain ⟨N, vals⟩ := t
    dsimp only at hle
    rcases lt_or_eq_of_le hle with hlt | heq
    · unfold bounded_multimap_try_insert TopNMap.try_insert
      rw [if_pos hlt, if_pos hlt]
    · unfold bounded_multimap_try_insert TopNMap.try_insert
      rw [if_neg (by omega : ¬ vals.length < N), if_neg (by omega : ¬ vals.length < N),
        if_pos heq]

/-- C4 witness: the invariant applied to the test scenario of
`top_n_map_spec.cc`: capacity 4 filled with four keys `0.5`, then `(0.5, 'e')`
is rejected (tie with the minimum) and `(0.6, 'f')` is accepted with eviction,
keeping size 4 (here scaled to a capacity-2 instance). -/
theorem top_n_selector_invariant_witness :
    ((([((1:ℚ)/2, 0), (1/2, 0), (1/2, 1), (1/2, 2)]).foldl
      (fun (s : TopNMap) kv => (s.try_insert kv.1 kv.2).2) ⟨4, []⟩).values.length ≤ 4) ∧
    (TopNMap.try_insert ⟨2, [((1:ℚ)/2, 0), (1/2, 1)]⟩ (1/2) 4 = (false, ⟨2, [(1/2, 0), (1/2, 1)]⟩)) ∧
    ((TopNMap.try_insert ⟨2, [((1:ℚ)/2, 0), (1/2, 1)]⟩ (3/5) 4).2.values.length =
      ([((1:ℚ)/2, 0), (1/2, 1)] : List (ℚ × ℕ)).length) := by
  have hsorted : sortedLE [((1:ℚ)/2, 0), (1/2, 1)] := by
    rw [sortedLE, List.pairwise_cons]
    constructor
    · intro q hq
      simp only [List.mem_singleton] at hq
      rw [hq]
    · exact List.pairwise_singleton _ _
  have h1 := top_n_selector_invariant.1 4 [((1:ℚ)/2, 0), (1/2, 0), (1/2, 1), (1/2, 2)]
  have h2 := top_n_selector_invariant.2.2.1 2 (1/2) 4 ((1:ℚ)/2) 0 [(1/2, 1)] rfl hsorted
  have h3 := top_n_selector_invariant.2.2.1 2 (3/5) 4 ((1:ℚ)/2) 0 [(1/2, 1)] rfl hsorted
  exact ⟨h1, h2.2.2.2 rfl, (h3.2.2.1 (by norm_num)).2⟩

/-! ### Randomized rule-set recombination (cj/math/set.hh, map_intersection_split_union)

The source merges two sorted maps, consuming exactly one uniform `[0,1)` draw
per loop iteration; the RNG is modelled as a stream `g : ℕ → ℚ` of draws with
a running index, and each `unif(rng) < 0.5` test reads the next draw. -/

/-- Function `map_intersection_split_union(xs, ys, rng)`: a key in both maps is
always kept, copying `xs`'s entry if the draw is below 1/2 and `ys`'s
otherwise; a key in exactly one map is kept iff its draw is below 1/2. -/
def map_intersection_split_union {K V : Type} [LinearOrder K] (g : ℕ → ℚ) :
    List (K × V) → List (K × V) → ℕ → List (K × V)
  | [], [], _ => []
  | x :: xs, [], i =>
    if g i < 1/2 then x :: map_intersection_split_union g xs [] (i + 1)
    else map_intersection_split_union g xs [] (i + 1)
  | [], y :: ys, i =>
    if g i < 1/2 then y :: map_intersection_split_union g [] ys (i + 1)
    else map_intersection_split_union g [] ys (i + 1)
  | x :: xs, y :: ys, i =>
    if x.1 < y.1 then
      (if g i < 1/2 then x :: map_intersection_split_union g xs (y :: ys) (i + 1)
       else map_intersection_split_union g xs (y :: ys) (i + 1))
    else if ¬ y.1 < x.1 then
      (if g i < 1/2 then x :: map_intersection_split_union g xs ys (i + 1)
       else y :: map_intersection_split_union g xs ys (i + 1))
    else
      (if g i < 1/2 then y :: map_intersection_split_union g (x :: xs) ys (i + 1)
       else map_intersection_split_union g (x :: xs) ys (i + 1))
  termination_by xs ys _ => xs.length + ys.length

/-- Every entry of the child comes verbatim from one of the two parents. -/
theorem misu_mem_of_mem {K V : Type} [LinearOrder K] (g : ℕ → ℚ) :
    ∀ (xs ys : List (K × V)) (i : ℕ) (p : K × V),
      p ∈ map_intersection_split_union g xs ys i → p ∈ xs ∨ p ∈ ys := by
  intro xs ys i
  induction xs, ys, i using @map_intersection_split_union.induct K V inferInstance g with
  | case1 i =>
    intro p hp
    simp [map_intersection_split_union] at hp
  | case2 x xs i hc ih =>
    intro p hp
    rw [map_intersection_split_union] at hp
    simp only [if_pos hc] at hp
    rcases List.mem_cons.mp hp with h | h
    · exact Or.inl (by simp [h])
    · rcases ih p h with h' | h'
      · exact Or.inl (by simp [h'])
      · exact Or.inr h'
  | case3 x xs i hc ih =>
    intro p hp
    rw [map_intersection_split_union] at hp
    simp only [if_neg hc] at hp
    rcases ih p hp with h' | h'
    · exact Or.inl (by simp [h'])
    · exact Or.inr h'
  | case4 y ys i hc ih =>
    intro p hp
    rw [map_intersection_split_union] at hp
    simp only [if_pos hc] at hp
    rcases List.mem_cons.mp hp with h | h
    · exact Or.inr (by simp [h])
    · rcases ih p h with h' | h'
      · exact Or.inl h'
      · exact Or.inr (by simp [h'])
  | case5 y ys i hc ih =>
    intro p hp
    rw [map_intersection_split_union] at hp
    simp only [if_neg hc] at hp
    rcases ih p hp with h' | h'
    · exact Or.inl h'
    · exact Or.inr (by simp [h'])
  | case6 x xs y ys i hxy hc ih =>
    intro p hp
    rw [map_intersection_split_union] at hp
    simp only [if_pos hxy, if_pos hc] at hp
    rcases List.mem_cons.mp hp with h | h
    · exact Or.inl (by simp [h])
    · rcases ih p h with h' | h'
      · exact Or.inl (by simp [h'])
      · exact Or.inr h'
  | case7 x xs y ys i hxy hc ih =>
    intro p hp
    rw [map_intersection_split_union] at hp
    simp only [if_pos hxy, if_neg hc] at hp
    rcases ih p hp with h' | h'
    · exact Or.inl (by simp [h'])
    · exact Or.inr h'
  | case8 x xs y ys i hxy hyx hc ih =>
    intro p hp
    rw [map_intersection_split_union] at hp
    simp only [if_neg hxy, if_pos hyx, if_pos hc] at hp
    rcases List.mem_cons.mp hp with h | h
    · exact Or.inl (by simp [h])
    · rcases ih p h with h' | h'
      · exact Or.inl (by simp [h'])
      · exact Or.inr (by simp [h'])
  | case9 x xs y ys i hxy hyx hc ih =>
    intro p hp
    rw [map_intersection_split_union] at hp
    simp only [if_neg hxy, if_pos hyx, if_neg hc] at hp
    rcases List.mem_cons.mp hp with h | h
    · exact Or.inr (by simp [h])
    · rcases ih p h with h' | h'
      · exact Or.inl (by simp [h'])
      · exact Or.inr (by simp [h'])
  | case10 x xs y ys i hxy hyx hc ih =>
    intro p hp
    rw [map_intersection_split_union] at hp
    simp only [if_neg hxy, if_neg hyx, if_pos hc] at hp
    rcases List.mem_cons.mp hp with h | h
    · exact Or.inr (by simp [h])
    · rcases ih p h with h' | h'
      · exact Or.inl h'
      · exact Or.inr (by simp [h'])
  | case11 x xs y ys i hxy hyx hc ih =>
    intro p hp
    rw [map_intersection_split_union] at hp
    simp only [if_neg hxy, if_neg hyx, if_neg hc] at hp
    rcases ih p hp with h' | h'
    · exact Or.inl h'
    · exact Or.inr (by simp [h'])

theorem lt_of_mem_keys {K V : Type} [LinearOrder K] {y : K × V} {ys : List (K × V)} {k : K}
    (hs : (y :: ys).Pairwise (fun p q => p.1 < q.1)) (hk : k ∈ ys.map Prod.fst) : y.1 < k := by
  obtain ⟨q, hq, rfl⟩ := List.mem_map.mp hk
  exact (List.pairwise_cons.mp hs).1 q hq

/-- A key present in both (sorted) parents is always present in the child. -/
theorem misu_shared_key_mem {K V : Type} [LinearOrder K] (g : ℕ → ℚ) :
    ∀ (xs ys : List (K × V)) (i : ℕ),
      xs.Pairwise (fun p q => p.1 < q.1) → ys.Pairwise (fun p q => p.1 < q.1) →
      ∀ k : K, k ∈ xs.map Prod.fst → k ∈ ys.map Prod.fst →
        k ∈ (map_intersection_split_union g xs ys i).map Prod.fst := by
  intro xs ys i
  induction xs, ys, i using @map_intersection_split_union.induct K V inferInstance g with
  | case1 i =>
    intro _ _ k hkx _
    simp at hkx
  | case2 x xs i hc ih =>
    intro _ _ k _ hky
    simp at hky
  | case3 x xs i hc ih =>
    intro _ _ k _ hky
    simp at hky
  | case4 y ys i hc ih =>
    intro _ _ k hkx _
    simp at hkx
  | case5 y ys i hc ih =>
    intro _ _ k hkx _
    simp at hkx
  | case6 x xs y ys i hxy hc ih =>
    intro hsx hsy k hkx hky
    rw [map_intersection_split_union]
    simp only [if_pos hxy, if_pos hc, List.map_cons, List.mem_cons]
    simp only [List.map_cons, List.mem_cons] at hkx hky
    rcases hkx with hk | hk
    · subst hk
      rcases hky with hk' | hk'
      · rw [hk'] at hxy
        exact absurd hxy (lt_irrefl y.1)
      · exact absurd (lt_of_mem_keys hsy hk') (lt_asymm hxy)
    · refine Or.inr (ih (List.pairwise_cons.mp hsx).2 hsy k hk ?_)
      simpa using hky
  | case7 x xs y ys i hxy hc ih =>
    intro hsx hsy k hkx hky
    rw [map_intersection_split_union]
    simp only [if_pos hxy, if_neg hc]
    simp only [List.map_cons, List.mem_cons] at hkx
    rcases hkx with hk | hk
    · subst hk
      simp only [List.map_cons, List.mem_cons] at hky
      rcases hky with hk' | hk'
      · rw [hk'] at hxy
        exact absurd hxy (lt_irrefl y.1)
      · exact absurd (lt_of_mem_keys hsy hk') (lt_asymm hxy)
    · exact ih (List.pairwise_cons.mp hsx).2 hsy k hk hky
  | case8 x xs y ys i hxy hyx hc ih =>
    intro hsx hsy k hkx hky
    have heq : x.1 = y.1 := le_antisymm (not_lt.mp hyx) (not_lt.mp hxy)
    rw [map_intersection_split_union]
    simp only [if_neg hxy, if_pos hyx, if_pos hc, List.map_cons, List.mem_cons]
    simp only [List.map_cons, List.mem_cons] at hkx hky
    rcases hkx with hk | hk
    · exact Or.inl hk
    · rcases hky with hk' | hk'
      · exfalso
        have hxk := lt_of_mem_keys hsx hk
        rw [hk', ← heq] at hxk
        exact lt_irrefl _ hxk
      · exact Or.inr (ih (List.pairwise_cons.mp hsx).2 (List.pairwise_cons.mp hsy).2 k hk hk')
  | case9 x xs y ys i hxy hyx hc ih =>
    intro hsx hsy k hkx hky
    have heq : x.1 = y.1 := le_antisymm (not_lt.mp hyx) (not_lt.mp hxy)
    rw [map_intersection_split_union]
    simp only [if_neg hxy, if_pos hyx, if_neg hc, List.map_cons, List.mem_cons]
    simp only [List.map_cons, List.mem_cons] at hkx hky
    rcases hkx with hk | hk
    · exact Or.inl (hk.trans heq)
    · rcases hky with hk' | hk'
      · exfalso
        have hxk := lt_of_mem_keys hsx hk
        rw [hk', ← heq] at hxk
        exact lt_irrefl _ hxk
      · exact Or.inr (ih (List.pairwise_cons.mp hsx).2 (List.pairwise_cons.mp hsy).2 k hk hk')
  | case10 x xs y ys i hxy hyx hc ih =>
    intro hsx hsy k hkx hky
    rw [map_intersection_split_union]
    simp only [if_neg hxy, if_neg hyx, if_pos hc, List.map_cons, List.mem_cons]
    simp only [List.map_cons, List.mem_cons] at hky
    rcases hky with hk' | hk'
    · exact Or.inl hk'
    · exact Or.inr (ih hsx (List.pairwise_cons.mp hsy).2 k hkx hk')
  | case11 x xs y ys i hxy hyx hc ih =>
    intro hsx hsy k hkx hky
    have hyx' : y.1 < x.1 := not_not.mp hyx
    rw [map_intersection_split_union]
    simp only [if_neg hxy, if_neg hyx, if_neg hc]
    simp only [List.map_cons, List.mem_cons] at hky
    rcases hky with hk' | hk'
    · exfalso
      simp only [List.map_cons, List.mem_cons] at hkx
      rcases hkx with hk | hk
      · rw [hk'] at hk
        rw [hk] at hyx'
        exact lt_irrefl _ hyx'
      · have hxk := lt_of_mem_keys hsx hk
        rw [hk'] at hxk
        exact lt_asymm hyx' hxk
    · exact ih hsx (List.pairwise_cons.mp hsy).2 k hkx hk'

/-- The child of two sorted parents is itself sorted by key (it is a map). -/
theorem misu_sorted {K V : Type} [LinearOrder K] (g : ℕ → ℚ) :
    ∀ (xs ys : List (K × V)) (i : ℕ),
      xs.Pairwise (fun p q => p.1 < q.1) → ys.Pairwise (fun p q => p.1 < q.1) →
      (map_intersection_split_union g xs ys i).Pairwise (fun p q => p.1 < q.1) := by
  intro xs ys i
  induction xs, ys, i using @map_intersection_split_union.induct K V inferInstance g with
  | case1 i =>
    intro _ _
    simp [map_intersection_split_union]
  | case2 x xs i hc ih =>
    intro hsx hsy
    rw [map_intersection_split_union]
    simp only [if_pos hc]
    rw [List.pairwise_cons]
    refine ⟨?_, ih (List.pairwise_cons.mp hsx).2 hsy⟩
    intro q hq
    rcases misu_mem_of_mem g xs [] (i + 1) q hq with h | h
    · exact (List.pairwise_cons.mp hsx).1 q h
    · simp at h
  | case3 x xs i hc ih =>
    intro hsx hsy
    rw [map_intersection_split_union]
    simp only [if_neg hc]
    exact ih (List.pairwise_cons.mp hsx).2 hsy
  | case4 y ys i hc ih =>
    intro hsx hsy
    rw [map_intersection_split_union]
    simp only [if_pos hc]
    rw [List.pairwise_cons]
    refine ⟨?_, ih hsx (List.pairwise_cons.mp hsy).2⟩
    intro q hq
    rcases misu_mem_of_mem g [] ys (i + 1) q hq with h | h
    · simp at h
    · exact (List.pairwise_cons.mp hsy).1 q h
  | case5 y ys i hc ih =>
    intro hsx hsy
    rw [map_intersection_split_union]
    simp only [if_neg hc]
    exact ih hsx (List.pairwise_cons.mp hsy).2
  | case6 x xs y ys i hxy hc ih =>
    intro hsx hsy
    rw [map_intersection_split_union]
    simp only [if_pos hxy, if_pos hc]
    rw [List.pairwise_cons]
    refine ⟨?_, ih (List.pairwise_cons.mp hsx).2 hsy⟩
    intro q hq
    rcases misu_mem_of_mem g xs (y :: ys) (i + 1) q hq with h | h
    · exact (List.pairwise_cons.mp hsx).1 q h
    · rcases List.mem_cons.mp h with h' | h'
      · rw [h']
        exact hxy
      · exact hxy.trans ((List.pairwise_cons.mp hsy).1 q h')
  | case7 x xs y ys i hxy hc ih =>
    intro hsx hsy
    rw [map_intersection_split_union]
    simp only [if_pos hxy, if_neg hc]
    exact ih (List.pairwise_cons.mp hsx).2 hsy
  | case8 x xs y ys i hxy hyx hc ih =>
    intro hsx hsy
    have heq : x.1 = y.1 := le_antisymm (not_lt.mp hyx) (not_lt.mp hxy)
    rw [map_intersection_split_union]
    simp only [if_neg hxy, if_pos hyx, if_pos hc]
    rw [List.pairwise_cons]
    refine ⟨?_, ih (List.pairwise_cons.mp hsx).2 (List.pairwise_cons.mp hsy).2⟩
    intro q hq
    rcases misu_mem_of_mem g xs ys (i + 1) q hq with h | h
    · exact (List.pairwise_cons.mp hsx).1 q h
    · rw [heq]
      exact (List.pairwise_cons.mp hsy).1 q h
  | case9 x xs y ys i hxy hyx hc ih =>
    intro hsx hsy
    have heq : x.1 = y.1 := le_antisymm (not_lt.mp hyx) (not_lt.mp hxy)
    rw [map_intersection_split_union]
    simp only [if_neg hxy, if_pos hyx, if_neg hc]
    rw [List.pairwise_cons]
    refine ⟨?_, ih (List.pairwise_cons.mp hsx).2 (List.pairwise_cons.mp hsy).2⟩
    intro q hq
    rcases misu_mem_of_mem g xs ys (i + 1) q hq with h | h
    · rw [← heq]
      exact (List.pairwise_cons.mp hsx).1 q h
    · exact (List.pairwise_cons.mp hsy).1 q h
  | case10 x xs y ys i hxy hyx hc ih =>
    intro hsx hsy
    have hyx' : y.1 < x.1 := not_not.mp hyx
    rw [map_intersection_split_union]
    simp only [if_neg hxy, if_neg hyx, if_pos hc]
    rw [List.pairwise_cons]
    refine ⟨?_, ih hsx (List.pairwise_cons.mp hsy).2⟩
    intro q hq
    rcases misu_mem_of_mem g (x :: xs) ys (i + 1) q hq with h | h
    · rcases List.mem_cons.mp h with h' | h'
      · rw [h']
        exact hyx'
      · exact hyx'.trans ((List.pairwise_cons.mp hsx).1 q h')
    · exact (List.pairwise_cons.mp hsy).1 q h
  | case11 x xs y ys i hxy hyx hc ih =>
    intro hsx hsy
    rw [map_intersection_split_union]
    simp only [if_neg hxy, if_neg hyx, if_neg hc]
    exact ih hsx (List.pairwise_cons.mp hsy).2

/-! #### Which draw decides which key

The merge loop handles the keys of both maps in ascending order and consumes
exactly one uniform draw per iteration (a shared key is handled in a single
iteration).  Hence the decision about key `k` reads the draw whose index is
the start index plus the number of distinct keys of the union strictly below
`k`. -/

/-- Number of merge-loop iterations that run before the iteration deciding
key `k`: the keys of `xs` below `k`, plus the keys of `ys` below `k` that are
not already keys of `xs`. -/
def decision_index {K V : Type} [LinearOrder K] (xs ys : List (K × V)) (k : K) : ℕ :=
  ((xs.map Prod.fst).filter (fun a => decide (a < k))).length +
  ((ys.map Prod.fst).filter (fun a => decide (a < k) && !decide (a ∈ xs.map Prod.fst))).length

theorem length_filter_eq_zero {α : Type} (p : α → Bool) :
    ∀ l : List α, (∀ a ∈ l, p a = false) → (l.filter p).length = 0 := by
  intro l
  induction l with
  | nil =>
    intro _
    rfl
  | cons a t ih =>
    intro h
    rw [List.filter_cons]
    rw [h a (by simp)]
    simp only [Bool.false_eq_true, if_false]
    exact ih (fun b hb => h b (by simp [hb]))

theorem length_filter_cons_true {α : Type} (p : α → Bool) (a : α) (l : List α)
    (h : p a = true) : ((a :: l).filter p).length = (l.filter p).length + 1 := by
  simp [List.filter_cons, h]

theorem length_filter_cons_false {α : Type} (p : α → Bool) (a : α) (l : List α)
    (h : p a = false) : ((a :: l).filter p).length = (l.filter p).length := by
  simp [List.filter_cons, h]

theorem filter_congr_over {α : Type} (p q : α → Bool) :
    ∀ l : List α, (∀ a ∈ l, p a = q a) → l.filter p = l.filter q := by
  intro l
  induction l with
  | nil =>
    intro _
    rfl
  | cons a t ih =>
    intro h
    rw [List.filter_cons, List.filter_cons, h a (by simp),
      ih (fun b hb => h b (by simp [hb]))]

theorem key_mem_of_mem {K V : Type} {k : K} {v : V} {l : List (K × V)} (h : (k, v) ∈ l) :
    k ∈ l.map Prod.fst :=
  List.mem_map.mpr ⟨(k, v), h, rfl⟩

theorem pair_ne_of_key_ne {K V : Type} {p q : K × V} (h : p.1 ≠ q.1) : p ≠ q :=
  fun he => h (by rw [he])

theorem mem_cons_iff_of_ne {α : Type} {a b : α} {l : List α} (h : a ≠ b) :
    a ∈ b :: l ↔ a ∈ l := by
  simp [List.mem_cons, h]

theorem not_mem_misu_of_key_lt {K V : Type} [LinearOrder K] (g : ℕ → ℚ)
    (xs ys : List (K × V)) (i : ℕ) (p : K × V)
    (hx : ∀ a ∈ xs.map Prod.fst, p.1 < a) (hy : ∀ a ∈ ys.map Prod.fst, p.1 < a) :
    p ∉ map_intersection_split_union g xs ys i := by
  intro hp
  rcases misu_mem_of_mem g xs ys i p hp with h | h
  · exact lt_irrefl p.1 (hx p.1 (List.mem_map.mpr ⟨p, h, rfl⟩))
  · exact lt_irrefl p.1 (hy p.1 (List.mem_map.mpr ⟨p, h, rfl⟩))

theorem lt_all_keys_cons {K V : Type} [LinearOrder K] {c : K} {y : K × V} {ys : List (K × V)}
    (hcy : c < y.1) (hsy : (y :: ys).Pairwise (fun p q => p.1 < q.1)) :
    ∀ a ∈ (y :: ys).map Prod.fst, c < a := by
  intro a ha
  simp only [List.map_cons, List.mem_cons] at ha
  rcases ha with h | h
  · rw [h]
    exact hcy
  · exact hcy.trans (lt_of_mem_keys hsy h)

theorem head_min_keys {K V : Type} [LinearOrder K] {x : K × V} {xs : List (K × V)}
    (hsx : (x :: xs).Pairwise (fun p q => p.1 < q.1)) :
    ∀ a ∈ (x :: xs).map Prod.fst, ¬ a < x.1 := by
  intro a ha
  simp only [List.map_cons, List.mem_cons] at ha
  rcases ha with h | h
  · rw [h]
    exact lt_irrefl _
  · exact lt_asymm (lt_of_mem_keys hsx h)

theorem decision_index_zero {K V : Type} [LinearOrder K] (xs ys : List (K × V)) (k : K)
    (hx : ∀ a ∈ xs.map Prod.fst, ¬ a < k) (hy : ∀ a ∈ ys.map Prod.fst, ¬ a < k) :
    decision_index xs ys k = 0 := by
  unfold decision_index
  rw [length_filter_eq_zero _ _ (fun a ha => by simp [hx a ha]),
    length_filter_eq_zero _ _ (fun a ha => by simp [hy a ha])]

theorem decision_index_cons_left {K V : Type} [LinearOrder K] (x : K × V)
    (xs ys : List (K × V)) (k : K) (hxk : x.1 < k) (hxy : x.1 ∉ ys.map Prod.fst) :
    decision_index (x :: xs) ys k = decision_index xs ys k + 1 := by
  unfold decision_index
  rw [List.map_cons, length_filter_cons_true _ _ _ (by simp [hxk])]
  have hcong : (ys.map Prod.fst).filter
        (fun a => decide (a < k) && !decide (a ∈ x.1 :: xs.map Prod.fst)) =
      (ys.map Prod.fst).filter (fun a => decide (a < k) && !decide (a ∈ xs.map Prod.fst)) := by
    apply filter_congr_over
    intro a ha
    have hax : ¬ a = x.1 := fun h => hxy (h ▸ ha)
    have hb : (a == x.1) = false := by simp [hax]
    simp [List.mem_cons, hax, hb]
  rw [hcong]
  omega

theorem decision_index_cons_right {K V : Type} [LinearOrder K] (y : K × V)
    (xs ys : List (K × V)) (k : K) (hyk : y.1 < k) (hyx : y.1 ∉ xs.map Prod.fst) :
    decision_index xs (y :: ys) k = decision_index xs ys k + 1 := by
  unfold decision_index
  rw [List.map_cons, length_filter_cons_true _ _ _ (by simp [hyk, hyx])]
  omega

theorem decision_index_cons_both {K V : Type} [LinearOrder K] (x y : K × V)
    (xs ys : List (K × V)) (k : K) (heq : x.1 = y.1) (hxk : x.1 < k)
    (hys : ∀ a ∈ ys.map Prod.fst, y.1 < a) :
    decision_index (x :: xs) (y :: ys) k = decision_index xs ys k + 1 := by
  unfold decision_index
  rw [List.map_cons, List.map_cons, length_filter_cons_true _ _ _ (by simp [hxk]),
    length_filter_cons_false _ _ _ (by simp [List.mem_cons, heq.symm, beq_iff_eq])]
  have hcong : (ys.map Prod.fst).filter
        (fun a => decide (a < k) && !decide (a ∈ x.1 :: xs.map Prod.fst)) =
      (ys.map Prod.fst).filter (fun a => decide (a < k) && !decide (a ∈ xs.map Prod.fst)) := by
    apply filter_congr_over
    intro a ha
    have hax : ¬ a = x.1 := by
      intro h
      have hya := hys a ha
      rw [h, ← heq] at hya
      exact lt_irrefl _ hya
    have hb : (a == x.1) = false := by simp [hax]
    simp [List.mem_cons, hax, hb]
  rw [hcong]
  omega

theorem add_succ_shift (i d : ℕ) : i + (d + 1) = (i + 1) + d := by omega

/-- How each decision of `map_intersection_split_union` depends on the draw
stream: a key present in exactly one (sorted) parent is in the child iff the
draw at its decision index is below 1/2, and a key present in both parents
always contributes `xs`'s entry when that draw is below 1/2 and `ys`'s entry
otherwise. -/
theorem misu_decisions {K V : Type} [LinearOrder K] (g : ℕ → ℚ) :
    ∀ (xs ys : List (K × V)) (i : ℕ),
      xs.Pairwise (fun p q => p.1 < q.1) → ys.Pairwise (fun p q => p.1 < q.1) →
      (∀ (k : K) (v : V), (k, v) ∈ xs → k ∉ ys.map Prod.fst →
        ((k, v) ∈ map_intersection_split_union g xs ys i ↔
          g (i + decision_index xs ys k) < 1/2)) ∧
      (∀ (k : K) (w : V), (k, w) ∈ ys → k ∉ xs.map Prod.fst →
        ((k, w) ∈ map_intersection_split_union g xs ys i ↔
          g (i + decision_index xs ys k) < 1/2)) ∧
      (∀ (k : K) (vx vy : V), (k, vx) ∈ xs → (k, vy) ∈ ys →
        (g (i + decision_index xs ys k) < 1/2 →
          (k, vx) ∈ map_intersection_split_union g xs ys i) ∧
        (¬ g (i + decision_index xs ys k) < 1/2 →
          (k, vy) ∈ map_intersection_split_union g xs ys i)) := by
  intro xs ys i
  induction xs, ys, i using @map_intersection_split_union.induct K V inferInstance g with
  | case1 i =>
    intro _ _
    refine ⟨?_, ?_, ?_⟩
    · intro k v hkv _
      exact absurd hkv (List.not_mem_nil _)
    · intro k w hkw _
      exact absurd hkw (List.not_mem_nil _)
    · intro k vx vy hkv _
      exact absurd hkv (List.not_mem_nil _)
  | case2 x xs i hc ih =>
    intro hsx _
    have hchild : map_intersection_split_union g (x :: xs) [] i =
        x :: map_intersection_split_union g xs [] (i + 1) := by
      rw [map_intersection_split_union]
      simp only [if_pos hc]
    obtain ⟨ihB, _, _⟩ := ih (List.pairwise_cons.mp hsx).2 List.Pairwise.nil
    refine ⟨?_, ?_, ?_⟩
    · intro k v hkv _
      rw [hchild]
      rcases List.mem_cons.mp hkv with hkx | hkx
      · have hk1 : k = x.1 := congrArg Prod.fst hkx
        have hd : decision_index (x :: xs) ([] : List (K × V)) k = 0 := by
          apply decision_index_zero
          · rw [hk1]
            exact head_min_keys hsx
          · intro a ha
            simp at ha
        rw [hd, Nat.add_zero]
        exact iff_of_true (List.mem_cons.mpr (Or.inl hkx)) hc
      · have hk_gt : x.1 < k := lt_of_mem_keys hsx (key_mem_of_mem hkx)
        rw [decision_index_cons_left x xs [] k hk_gt (by simp),
          add_succ_shift i (decision_index xs [] k)]
        rw [mem_cons_iff_of_ne (pair_ne_of_key_ne (show (k, v).1 ≠ x.1 from ne_of_gt hk_gt))]
        exact ihB k v hkx (by simp)
    · intro k w hkw _
      exact absurd hkw (List.not_mem_nil _)
    · intro k vx vy _ hkvy
      exact absurd hkvy (List.not_mem_nil _)
  | case3 x xs i hc ih =>
    intro hsx _
    have hchild : map_intersection_split_union g (x :: xs) [] i =
        map_intersection_split_union g xs [] (i + 1) := by
      rw [map_intersection_split_union]
      simp only [if_neg hc]
    obtain ⟨ihB, _, _⟩ := ih (List.pairwise_cons.mp hsx).2 List.Pairwise.nil
    refine ⟨?_, ?_, ?_⟩
    · intro k v hkv _
      rw [hchild]
      rcases List.mem_cons.mp hkv with hkx | hkx
      · have hk1 : k = x.1 := congrArg Prod.fst hkx
        have hd : decision_index (x :: xs) ([] : List (K × V)) k = 0 := by
          apply decision_index_zero
          · rw [hk1]
            exact head_min_keys hsx
          · intro a ha
            simp at ha
        rw [hd, Nat.add_zero]
        refine iff_of_false ?_ hc
        rw [hkx]
        exact not_mem_misu_of_key_lt g xs [] (i + 1) x
          (fun a ha => lt_of_mem_keys hsx ha) (by intro a ha; simp at ha)
      · have hk_gt : x.1 < k := lt_of_mem_keys hsx (key_mem_of_mem hkx)
        rw [decision_index_cons_left x xs [] k hk_gt (by simp),
          add_succ_shift i (decision_index xs [] k)]
        exact ihB k v hkx (by simp)
    · intro k w hkw _
      exact absurd hkw (List.not_mem_nil _)
    · intro k vx vy _ hkvy
      exact absurd hkvy (List.not_mem_nil _)
  | case4 y ys i hc ih =>
    intro _ hsy
    have hchild : map_intersection_split_union g [] (y :: ys) i =
        y :: map_intersection_split_union g [] ys (i + 1) := by
      rw [map_intersection_split_union]
      simp only [if_pos hc]
    obtain ⟨_, ihC, _⟩ := ih List.Pairwise.nil (List.pairwise_cons.mp hsy).2
    refine ⟨?_, ?_, ?_⟩
    · intro k v hkv _
      exact absurd hkv (List.not_mem_nil _)
    · intro k w hkw _
      rw [hchild]
      rcases List.mem_cons.mp hkw with hky | hky
      · have hk1 : k = y.1 := congrArg Prod.fst hky
        have hd : decision_index ([] : List (K × V)) (y :: ys) k = 0 := by
          apply decision_index_zero
          · intro a ha
            simp at ha
          · rw [hk1]
            exact head_min_keys hsy
        rw [hd, Nat.add_zero]
        exact iff_of_true (List.mem_cons.mpr (Or.inl hky)) hc
      · have hk_gt : y.1 < k := lt_of_mem_keys hsy (key_mem_of_mem hky)
        rw [decision_index_cons_right y [] ys k hk_gt (by simp),
          add_succ_shift i (decision_index [] ys k)]
        rw [mem_cons_iff_of_ne (pair_ne_of_key_ne (show (k, w).1 ≠ y.1 from ne_of_gt hk_gt))]
        exact ihC k w hky (by simp)
    · intro k vx vy hkvx _
      exact absurd hkvx (List.not_mem_nil _)
  | case5 y ys i hc ih =>
    intro _ hsy
    have hchild : map_intersection_split_union g [] (y :: ys) i =
        map_intersection_split_union g [] ys (i + 1) := by
      rw [map_intersection_split_union]
      simp only [if_neg hc]
    obtain ⟨_, ihC, _⟩ := ih List.Pairwise.nil (List.pairwise_cons.mp hsy).2
    refine ⟨?_, ?_, ?_⟩
    · intro k v hkv _
      exact absurd hkv (List.not_mem_nil _)
    · intro k w hkw _
      rw [hchild]
      rcases List.mem_cons.mp hkw with hky | hky
      · have hk1 : k = y.1 := congrArg Prod.fst hky
        have hd : decision_index ([] : List (K × V)) (y :: ys) k = 0 := by
          apply decision_index_zero
          · intro a ha
            simp at ha
          · rw [hk1]
            exact head_min_keys hsy
        rw [hd, Nat.add_zero]
        refine iff_of_false ?_ hc
        rw [hky]
        exact not_mem_misu_of_key_lt g [] ys (i + 1) y
          (by intro a ha; simp at ha) (fun a ha => lt_of_mem_keys hsy ha)
      · have hk_gt : y.1 < k := lt_of_mem_keys hsy (key_mem_of_mem hky)
        rw [decision_index_cons_right y [] ys k hk_gt (by simp),
          add_succ_shift i (decision_index [] ys k)]
        exact ihC k w hky (by simp)
    · intro k vx vy hkvx _
      exact absurd hkvx (List.not_mem_nil _)
  | case6 x xs y ys i hxy hc ih =>
    intro hsx hsy
    have hchild : map_intersection_split_union g (x :: xs) (y :: ys) i =
        x :: map_intersection_split_union g xs (y :: ys) (i + 1) := by
      rw [map_intersection_split_union]
      simp only [if_pos hxy, if_pos hc]
    have hxny : x.1 ∉ (y :: ys).map Prod.fst :=
      fun hmem => lt_irrefl _ (lt_all_keys_cons hxy hsy x.1 hmem)
    obtain ⟨ihB, ihC, ihA⟩ := ih (List.pairwise_cons.mp hsx).2 hsy
    refine ⟨?_, ?_, ?_⟩
    · intro k v hkv hknot
      rw [hchild]
      rcases List.mem_cons.mp hkv with hkx | hkx
      · have hk1 : k = x.1 := congrArg Prod.fst hkx
        have hd : decision_index (x :: xs) (y :: ys) k = 0 := by
          apply decision_index_zero
          · rw [hk1]
            exact head_min_keys hsx
          · rw [hk1]
            intro a ha
            exact lt_asymm (lt_all_keys_cons hxy hsy a ha)
        rw [hd, Nat.add_zero]
        exact iff_of_true (List.mem_cons.mpr (Or.inl hkx)) hc
      · have hk_gt : x.1 < k := lt_of_mem_keys hsx (key_mem_of_mem hkx)
        rw [decision_index_cons_left x xs (y :: ys) k hk_gt hxny,
          add_succ_shift i (decision_index xs (y :: ys) k)]
        rw [mem_cons_iff_of_ne (pair_ne_of_key_ne (show (k, v).1 ≠ x.1 from ne_of_gt hk_gt))]
        exact ihB k v hkx hknot
    · intro k w hkw hknot
      rw [hchild]
      have hk_gt : x.1 < k := lt_all_keys_cons hxy hsy k (key_mem_of_mem hkw)
      rw [decision_index_cons_left x xs (y :: ys) k hk_gt hxny,
          add_succ_shift i (decision_index xs (y :: ys) k)]
      rw [mem_cons_iff_of_ne (pair_ne_of_key_ne (show (k, w).1 ≠ x.1 from ne_of_gt hk_gt))]
      exact ihC k w hkw
        (fun hmem => hknot (by simp only [List.map_cons, List.mem_cons]; exact Or.inr hmem))
    · intro k vx vy hkvx hkvy
      have hk_gt : x.1 < k := lt_all_keys_cons hxy hsy k (key_mem_of_mem hkvy)
      have hkvx' : (k, vx) ∈ xs := by
        rcases List.mem_cons.mp hkvx with h | h
        · exfalso
          have hk1 : k = x.1 := congrArg Prod.fst h
          rw [hk1] at hk_gt
          exact lt_irrefl _ hk_gt
        · exact h
      rw [decision_index_cons_left x xs (y :: ys) k hk_gt hxny,
          add_succ_shift i (decision_index xs (y :: ys) k), hchild]
      obtain ⟨h1, h2⟩ := ihA k vx vy hkvx' hkvy
      exact ⟨fun h => List.mem_cons_of_mem x (h1 h), fun h => List.mem_cons_of_mem x (h2 h)⟩
  | case7 x xs y ys i hxy hc ih =>
    intro hsx hsy
    have hchild : map_intersection_split_union g (x :: xs) (y :: ys) i =
        map_intersection_split_union g xs (y :: ys) (i + 1) := by
      rw [map_intersection_split_union]
      simp only [if_pos hxy, if_neg hc]
    have hxny : x.1 ∉ (y :: ys).map Prod.fst :=
      fun hmem => lt_irrefl _ (lt_all_keys_cons hxy hsy x.1 hmem)
    obtain ⟨ihB, ihC, ihA⟩ := ih (List.pairwise_cons.mp hsx).2 hsy
    refine ⟨?_, ?_, ?_⟩
    · intro k v hkv hknot
      rw [hchild]
      rcases List.mem_cons.mp hkv with hkx | hkx
      · have hk1 : k = x.1 := congrArg Prod.fst hkx
        have hd : decision_index (x :: xs) (y :: ys) k = 0 := by
          apply decision_index_zero
          · rw [hk1]
            exact head_min_keys hsx
          · rw [hk1]
            intro a ha
            exact lt_asymm (lt_all_keys_cons hxy hsy a ha)
        rw [hd, Nat.add_zero]
        refine iff_of_false ?_ hc
        rw [hkx]
        exact not_mem_misu_of_key_lt g xs (y :: ys) (i + 1) x
          (fun a ha => lt_of_mem_keys hsx ha) (lt_all_keys_cons hxy hsy)
      · have hk_gt : x.1 < k := lt_of_mem_keys hsx (key_mem_of_mem hkx)
        rw [decision_index_cons_left x xs (y :: ys) k hk_gt hxny,
          add_succ_shift i (decision_index xs (y :: ys) k)]
        exact ihB k v hkx hknot
    · intro k w hkw hknot
      rw [hchild]
      have hk_gt : x.1 < k := lt_all_keys_cons hxy hsy k (key_mem_of_mem hkw)
      rw [decision_index_cons_left x xs (y :: ys) k hk_gt hxny,
          add_succ_shift i (decision_index xs (y :: ys) k)]
      exact ihC k w hkw
        (fun hmem => hknot (by simp only [List.map_cons, List.mem_cons]; exact Or.inr hmem))
    · intro k vx vy hkvx hkvy
      have hk_gt : x.1 < k := lt_all_keys_cons hxy hsy k (key_mem_of_mem hkvy)
      have hkvx' : (k, vx) ∈ xs := by
        rcases List.mem_cons.mp hkvx with h | h
        · exfalso
          have hk1 : k = x.1 := congrArg Prod.fst h
          rw [hk1] at hk_gt
          exact lt_irrefl _ hk_gt
        · exact h
      rw [decision_index_cons_left x xs (y :: ys) k hk_gt hxny,
          add_succ_shift i (decision_index xs (y :: ys) k), hchild]
      exact ihA k vx vy hkvx' hkvy
  | case8 x xs y ys i hxy hyx hc ih =>
    intro hsx hsy
    have heq : x.1 = y.1 := le_antisymm (not_lt.mp hyx) (not_lt.mp hxy)
    have hchild : map_intersection_split_union g (x :: xs) (y :: ys) i =
        x :: map_intersection_split_union g xs ys (i + 1) := by
      rw [map_intersection_split_union]
      simp only [if_neg hxy, if_pos hyx, if_pos hc]
    obtain ⟨ihB, ihC, ihA⟩ := ih (List.pairwise_cons.mp hsx).2 (List.pairwise_cons.mp hsy).2
    refine ⟨?_, ?_, ?_⟩
    · intro k v hkv hknot
      rcases List.mem_cons.mp hkv with hkx | hkx
      · exfalso
        have hk1 : k = x.1 := congrArg Prod.fst hkx
        exact hknot (by rw [hk1, heq]; simp)
      · have hk_gt : x.1 < k := lt_of_mem_keys hsx (key_mem_of_mem hkx)
        rw [decision_index_cons_both x y xs ys k heq hk_gt
          (fun a ha => lt_of_mem_keys hsy ha),
          add_succ_shift i (decision_index xs ys k), hchild]
        rw [mem_cons_iff_of_ne (pair_ne_of_key_ne (show (k, v).1 ≠ x.1 from ne_of_gt hk_gt))]
        exact ihB k v hkx
          (fun hmem => hknot (by simp only [List.map_cons, List.mem_cons]; exact Or.inr hmem))
    · intro k w hkw hknot
      rcases List.mem_cons.mp hkw with hky | hky
      · exfalso
        have hk1 : k = y.1 := congrArg Prod.fst hky
        exact hknot (by rw [hk1, ← heq]; simp)
      · have hk_gt : y.1 < k := lt_of_mem_keys hsy (key_mem_of_mem hky)
        have hk_gt' : x.1 < k := by
          rw [heq]
          exact hk_gt
        rw [decision_index_cons_both x y xs ys k heq hk_gt'
          (fun a ha => lt_of_mem_keys hsy ha),
          add_succ_shift i (decision_index xs ys k), hchild]
        rw [mem_cons_iff_of_ne (pair_ne_of_key_ne (show (k, w).1 ≠ x.1 from ne_of_gt hk_gt'))]
        exact ihC k w hky
          (fun hmem => hknot (by simp only [List.map_cons, List.mem_cons]; exact Or.inr hmem))
    · intro k vx vy hkvx hkvy
      rcases List.mem_cons.mp hkvx with hx1 | hx1
      · have hk1 : k = x.1 := congrArg Prod.fst hx1
        have hd : decision_index (x :: xs) (y :: ys) k = 0 := by
          apply decision_index_zero
          · rw [hk1]
            exact head_min_keys hsx
          · rw [hk1, heq]
            exact head_min_keys hsy
        rw [hd, Nat.add_zero, hchild]
        constructor
        · intro _
          exact List.mem_cons.mpr (Or.inl hx1)
        · intro hnc
          exact absurd hc hnc
      · have hk_gt : x.1 < k := lt_of_mem_keys hsx (key_mem_of_mem hx1)
        have hkvy' : (k, vy) ∈ ys := by
          rcases List.mem_cons.mp hkvy with h | h
          · exfalso
            have hk1 : k = y.1 := congrArg Prod.fst h
            rw [hk1, ← heq] at hk_gt
            exact lt_irrefl _ hk_gt
          · exact h
        rw [decision_index_cons_both x y xs ys k heq hk_gt
          (fun a ha => lt_of_mem_keys hsy ha),
          add_succ_shift i (decision_index xs ys k), hchild]
        obtain ⟨h1, h2⟩ := ihA k vx vy hx1 hkvy'
        exact ⟨fun h => List.mem_cons_of_mem x (h1 h), fun h => List.mem_cons_of_mem x (h2 h)⟩
  | case9 x xs y ys i hxy hyx hc ih =>
    intro hsx hsy
    have heq : x.1 = y.1 := le_antisymm (not_lt.mp hyx) (not_lt.mp hxy)
    have hchild : map_intersection_split_union g (x :: xs) (y :: ys) i =
        y :: map_intersection_split_union g xs ys (i + 1) := by
      rw [map_intersection_split_union]
      simp only [if_neg hxy, if_pos hyx, if_neg hc]
    obtain ⟨ihB, ihC, ihA⟩ := ih (List.pairwise_cons.mp hsx).2 (List.pairwise_cons.mp hsy).2
    refine ⟨?_, ?_, ?_⟩
    · intro k v hkv hknot
      rcases List.mem_cons.mp hkv with hkx | hkx
      · exfalso
        have hk1 : k = x.1 := congrArg Prod.fst hkx
        exact hknot (by rw [hk1, heq]; simp)
      · have hk_gt : x.1 < k := lt_of_mem_keys hsx (key_mem_of_mem hkx)
        have hk_gt'' : y.1 < k := by
          rw [← heq]
          exact hk_gt
        rw [decision_index_cons_both x y xs ys k heq hk_gt
          (fun a ha => lt_of_mem_keys hsy ha),
          add_succ_shift i (decision_index xs ys k), hchild]
        rw [mem_cons_iff_of_ne (pair_ne_of_key_ne (show (k, v).1 ≠ y.1 from ne_of_gt hk_gt''))]
        exact ihB k v hkx
          (fun hmem => hknot (by simp only [List.map_cons, List.mem_cons]; exact Or.inr hmem))
    · intro k w hkw hknot
      rcases List.mem_cons.mp hkw with hky | hky
      · exfalso
        have hk1 : k = y.1 := congrArg Prod.fst hky
        exact hknot (by rw [hk1, ← heq]; simp)
      · have hk_gt : y.1 < k := lt_of_mem_keys hsy (key_mem_of_mem hky)
        have hk_gt' : x.1 < k := by
          rw [heq]
          exact hk_gt
        rw [decision_index_cons_both x y xs ys k heq hk_gt'
          (fun a ha => lt_of_mem_keys hsy ha),
          add_succ_shift i (decision_index xs ys k), hchild]
        rw [mem_cons_iff_of_ne (pair_ne_of_key_ne (show (k, w).1 ≠ y.1 from ne_of_gt hk_gt))]
        exact ihC k w hky
          (fun hmem => hknot (by simp only [List.map_cons, List.mem_cons]; exact Or.inr hmem))
    · intro k vx vy hkvx hkvy
      rcases List.mem_cons.mp hkvx with hx1 | hx1
      · have hk1 : k = x.1 := congrArg Prod.fst hx1
        have hkvy'' : (k, vy) = y := by
          rcases List.mem_cons.mp hkvy with h | h
          · exact h
          · exfalso
            have := lt_of_mem_keys hsy (key_mem_of_mem h)
            rw [hk1, heq] at this
            exact lt_irrefl _ this
        have hd : decision_index (x :: xs) (y :: ys) k = 0 := by
          apply decision_index_zero
          · rw [hk1]
            exact head_min_keys hsx
          · rw [hk1, heq]
            exact head_min_keys hsy
        rw [hd, Nat.add_zero, hchild]
        constructor
        · intro hcc
          exact absurd hcc hc
        · intro _
          exact List.mem_cons.mpr (Or.inl hkvy'')
      · have hk_gt : x.1 < k := lt_of_mem_keys hsx (key_mem_of_mem hx1)
        have hkvy' : (k, vy) ∈ ys := by
          rcases List.mem_cons.mp hkvy with h | h
          · exfalso
            have hk1 : k = y.1 := congrArg Prod.fst h
            rw [hk1, ← heq] at hk_gt
            exact lt_irrefl _ hk_gt
          · exact h
        rw [decision_index_cons_both x y xs ys k heq hk_gt
          (fun a ha => lt_of_mem_keys hsy ha),
          add_succ_shift i (decision_index xs ys k), hchild]
        obtain ⟨h1, h2⟩ := ihA k vx vy hx1 hkvy'
        exact ⟨fun h => List.mem_cons_of_mem y (h1 h), fun h => List.mem_cons_of_mem y (h2 h)⟩
  | case10 x xs y ys i hxy hyx hc ih =>
    intro hsx hsy
    have hyx' : y.1 < x.1 := not_not.mp hyx
    have hchild : map_intersection_split_union g (x :: xs) (y :: ys) i =
        y :: map_intersection_split_union g (x :: xs) ys (i + 1) := by
      rw [map_intersection_split_union]
      simp only [if_neg hxy, if_neg hyx, if_pos hc]
    have hynx : y.1 ∉ (x :: xs).map Prod.fst :=
      fun hmem => lt_irrefl _ (lt_all_keys_cons hyx' hsx y.1 hmem)
    obtain ⟨ihB, ihC, ihA⟩ := ih hsx (List.pairwise_cons.mp hsy).2
    refine ⟨?_, ?_, ?_⟩
    · intro k v hkv hknot
      have hk_gt : y.1 < k := lt_all_keys_cons hyx' hsx k (key_mem_of_mem hkv)
      rw [decision_index_cons_right y (x :: xs) ys k hk_gt hynx,
          add_succ_shift i (decision_index (x :: xs) ys k), hchild]
      rw [mem_cons_iff_of_ne (pair_ne_of_key_ne (show (k, v).1 ≠ y.1 from ne_of_gt hk_gt))]
      exact ihB k v hkv
        (fun hmem => hknot (by simp only [List.map_cons, List.mem_cons]; exact Or.inr hmem))
    · intro k w hkw hknot
      rcases List.mem_cons.mp hkw with hky | hky
      · have hk1 : k = y.1 := congrArg Prod.fst hky
        have hd : decision_index (x :: xs) (y :: ys) k = 0 := by
          apply decision_index_zero
          · rw [hk1]
            intro a ha
            exact lt_asymm (lt_all_keys_cons hyx' hsx a ha)
          · rw [hk1]
            exact head_min_keys hsy
        rw [hd, Nat.add_zero, hchild]
        exact iff_of_true (List.mem_cons.mpr (Or.inl hky)) hc
      · have hk_gt : y.1 < k := lt_of_mem_keys hsy (key_mem_of_mem hky)
        rw [decision_index_cons_right y (x :: xs) ys k hk_gt hynx,
          add_succ_shift i (decision_index (x :: xs) ys k), hchild]
        rw [mem_cons_iff_of_ne (pair_ne_of_key_ne (show (k, w).1 ≠ y.1 from ne_of_gt hk_gt))]
        exact ihC k w hky hknot
    · intro k vx vy hkvx hkvy
      have hk_gt : y.1 < k := lt_all_keys_cons hyx' hsx k (key_mem_of_mem hkvx)
      have hkvy' : (k, vy) ∈ ys := by
        rcases List.mem_cons.mp hkvy with h | h
        · exfalso
          have hk1 : k = y.1 := congrArg Prod.fst h
          rw [hk1] at hk_gt
          exact lt_irrefl _ hk_gt
        · exact h
      rw [decision_index_cons_right y (x :: xs) ys k hk_gt hynx,
          add_succ_shift i (decision_index (x :: xs) ys k), hchild]
      obtain ⟨h1, h2⟩ := ihA k vx vy hkvx hkvy'
      exact ⟨fun h => List.mem_cons_of_mem y (h1 h), fun h => List.mem_cons_of_mem y (h2 h)⟩
  | case11 x xs y ys i hxy hyx hc ih =>
    intro hsx hsy
    have hyx' : y.1 < x.1 := not_not.mp hyx
    have hchild : map_intersection_split_union g (x :: xs) (y :: ys) i =
        map_intersection_split_union g (x :: xs) ys (i + 1) := by
      rw [map_intersection_split_union]
      simp only [if_neg hxy, if_neg hyx, if_neg hc]
    have hynx : y.1 ∉ (x :: xs).map Prod.fst :=
      fun hmem => lt_irrefl _ (lt_all_keys_cons hyx' hsx y.1 hmem)
    obtain ⟨ihB, ihC, ihA⟩ := ih hsx (List.pairwise_cons.mp hsy).2
    refine ⟨?_, ?_, ?_⟩
    · intro k v hkv hknot
      have hk_gt : y.1 < k := lt_all_keys_cons hyx' hsx k (key_mem_of_mem hkv)
      rw [decision_index_cons_right y (x :: xs) ys k hk_gt hynx,
          add_succ_shift i (decision_index (x :: xs) ys k), hchild]
      exact ihB k v hkv
        (fun hmem => hknot (by simp only [List.map_cons, List.mem_cons]; exact Or.inr hmem))
    · intro k w hkw hknot
      rcases List.mem_cons.mp hkw with hky | hky
      · have hk1 : k = y.1 := congrArg Prod.fst hky
        have hd : decision_index (x :: xs) (y :: ys) k = 0 := by
          apply decision_index_zero
          · rw [hk1]
            intro a ha
            exact lt_asymm (lt_all_keys_cons hyx' hsx a ha)
          · rw [hk1]
            exact head_min_keys hsy
        rw [hd, Nat.add_zero, hchild]
        refine iff_of_false ?_ hc
        rw [hky]
        exact not_mem_misu_of_key_lt g (x :: xs) ys (i + 1) y
          (lt_all_keys_cons hyx' hsx) (fun a ha => lt_of_mem_keys hsy ha)
      · have hk_gt : y.1 < k := lt_of_mem_keys hsy (key_mem_of_mem hky)
        rw [decision_index_cons_right y (x :: xs) ys k hk_gt hynx,
          add_succ_shift i (decision_index (x :: xs) ys k), hchild]
        exact ihC k w hky hknot
    · intro k vx vy hkvx hkvy
      have hk_gt : y.1 < k := lt_all_keys_cons hyx' hsx k (key_mem_of_mem hkvx)
      have hkvy' : (k, vy) ∈ ys := by
        rcases List.mem_cons.mp hkvy with h | h
        · exfalso
          have hk1 : k = y.1 := congrArg Prod.fst h
          rw [hk1] at hk_gt
          exact lt_irrefl _ hk_gt
        · exact h
      rw [decision_index_cons_right y (x :: xs) ys k hk_gt hynx,
          add_succ_shift i (decision_index (x :: xs) ys k), hchild]
      exact ihA k vx vy hkvx hkvy'

/-! ### Claim C5: recombination characterization -/

/-- C5: for sorted parent maps and every draw stream, the child of
`map_intersection_split_union` is itself a sorted map whose entries all come
verbatim from one of the two parents (so no key outside the union of the
parents' keys ever appears, and a key present in exactly one parent can only
carry that parent's value), and every key present in both parents is always
included.  Moreover every decision is tied to its own dedicated uniform draw —
the one at position `i + decision_index xs ys k`, where `decision_index`
counts the distinct union keys strictly below `k`, so distinct keys read
distinct positions of the stream (the code's independence): a key present in
exactly one parent is included if and only if its draw is below 1/2
("independent probability 1/2"), and a key present in both parents copies
`xs`'s entry when its draw is below 1/2 and `ys`'s entry otherwise (each
outcome a probability-1/2 event of the uniform draw). -/
theorem map_intersection_split_union_characterization {K V : Type} [LinearOrder K]
    (g : ℕ → ℚ) (xs ys : List (K × V)) (i : ℕ)
    (hsx : xs.Pairwise (fun p q => p.1 < q.1)) (hsy : ys.Pairwise (fun p q => p.1 < q.1)) :
    (∀ p ∈ map_intersection_split_union g xs ys i, p ∈ xs ∨ p ∈ ys) ∧
    (∀ k : K, k ∈ xs.map Prod.fst → k ∈ ys.map Prod.fst →
      k ∈ (map_intersection_split_union g xs ys i).map Prod.fst) ∧
    (map_intersection_split_union g xs ys i).Pairwise (fun p q => p.1 < q.1) ∧
    (∀ p ∈ map_intersection_split_union g xs ys i, p.1 ∉ ys.map Prod.fst → p ∈ xs) ∧
    (∀ p ∈ map_intersection_split_union g xs ys i, p.1 ∉ xs.map Prod.fst → p ∈ ys) ∧
    (∀ (k : K) (v : V), (k, v) ∈ xs → k ∉ ys.map Prod.fst →
      ((k, v) ∈ map_intersection_split_union g xs ys i ↔
        g (i + decision_index xs ys k) < 1/2)) ∧
    (∀ (k : K) (w : V), (k, w) ∈ ys → k ∉ xs.map Prod.fst →
      ((k, w) ∈ map_intersection_split_union g xs ys i ↔
        g (i + decision_index xs ys k) < 1/2)) ∧
    (∀ (k : K) (vx vy : V), (k, vx) ∈ xs → (k, vy) ∈ ys →
      (g (i + decision_index xs ys k) < 1/2 →
        (k, vx) ∈ map_intersection_split_union g xs ys i) ∧
      (¬ g (i + decision_index xs ys k) < 1/2 →
        (k, vy) ∈ map_intersection_split_union g xs ys i)) := by
  obtain ⟨hB, hC, hA⟩ := misu_decisions g xs ys i hsx hsy
  refine ⟨misu_mem_of_mem g xs ys i, misu_shared_key_mem g xs ys i hsx hsy,
    misu_sorted g xs ys i hsx hsy, ?_, ?_, hB, hC, hA⟩
  · intro p hp hnot
    rcases misu_mem_of_mem g xs ys i p hp with h | h
    · exact h
    · exact absurd (List.mem_map.mpr ⟨p, h, rfl⟩) hnot
  · intro p hp hnot
    rcases misu_mem_of_mem g xs ys i p hp with h | h
    · exact absurd (List.mem_map.mpr ⟨p, h, rfl⟩) hnot
    · exact h

/-- C5 witness: parents `{0 ↦ 0, 1 ↦ 1}` and `{1 ↦ 5}` under the all-low draw
stream: the shared key 1 is present, the exclusive key 0 is included because
its draw is low, and the shared key 1 carries the first parent's entry
`(1, 1)` because its draw is low. -/
theorem map_intersection_split_union_characterization_witness :
    ((1 : ℕ) ∈ (map_intersection_split_union (fun _ => (0 : ℚ))
      [((0 : ℕ), (0 : ℕ)), (1, 1)] [((1 : ℕ), (5 : ℕ))] 0).map Prod.fst) ∧
    (((0 : ℕ), (0 : ℕ)) ∈ map_intersection_split_union (fun _ => (0 : ℚ))
      [((0 : ℕ), (0 : ℕ)), (1, 1)] [((1 : ℕ), (5 : ℕ))] 0) ∧
    (((1 : ℕ), (1 : ℕ)) ∈ map_intersection_split_union (fun _ => (0 : ℚ))
      [((0 : ℕ), (0 : ℕ)), (1, 1)] [((1 : ℕ), (5 : ℕ))] 0) := by
  have h := map_intersection_split_union_characterization (fun _ => (0 : ℚ))
    [((0 : ℕ), (0 : ℕ)), (1, 1)] [((1 : ℕ), (5 : ℕ))] 0 (by simp) (by simp)
  refine ⟨h.2.1 1 (by simp) (by simp), ?_, ?_⟩
  · exact (h.2.2.2.2.2.1 0 0 (by simp) (by simp)).mpr (by norm_num)
  · exact (h.2.2.2.2.2.2.2 1 1 5 (by simp) (by simp)).1 (by norm_num)

end CJ
